import Mathlib

/-!
Verification of the Meowko voice pipeline core: a shallow embedding of
`src/media/audio.py` (AudioResampler, PCMStreamSource) and
`src/discord/voice.py` (_TagStripper, UserAudioStream), with theorems
settling the specified behavioural claims.

Byte strings are modelled as `List Nat` (each entry a byte value), PCM
sample vectors as `List Int` (16-bit signed samples), and Python text as
`List Char`.  Fallible Python code (exceptions) is modelled with `Option`.
-/

namespace Meowko

/-! ### Little-endian int16 codec, modelling Python `array("h", ...)` -/

/-- Decode one little-endian signed 16-bit sample from two bytes
(`v = lo + 256*hi`, reinterpreted as signed). -/
def decodeI16 (lo hi : Nat) : Int :=
  if (lo + 256 * hi : Int) < 32768 then lo + 256 * hi
  else lo + 256 * hi - 65536

/-- Models `array("h", b)` on a bytes object `b`: raises (`none`) when the
byte length is odd, otherwise decodes consecutive little-endian int16
samples. -/
def arrayH : List Nat → Option (List Int)
  | [] => some []
  | [_] => none
  | lo :: hi :: rest => (arrayH rest).map (fun vs => decodeI16 lo hi :: vs)

/-- Encode one int16 value as two little-endian bytes
(the value is reduced mod 2^16 first; callers check the range). -/
def encodeI16 (v : Int) : List Nat :=
  [((v % 65536).toNat) % 256, ((v % 65536).toNat) / 256]

/-- Models `array("h", vs).tobytes()`: constructing the array raises
OverflowError (`none`) for values outside the int16 range. -/
def toBytes (vs : List Int) : Option (List Nat) :=
  if vs.all (fun v => decide (-32768 ≤ v) && decide (v ≤ 32767)) then
    some (vs.flatMap encodeI16)
  else none

/-! ### AudioResampler (`src/media/audio.py` lines 12-40) -/

/-- The averaging generator of `discord_to_stt`:
`(samples[i] + samples[i+1]) // 2 for i in range(0, len(samples), 2)`.
Python `//` is floor division; the divisor 2 is positive so `Int`'s `/`
(Euclidean division) coincides with it.  When the sample count is odd the
generator indexes `samples[i + 1]` out of range (IndexError), modelled by
`none`. -/
def stereoAvg : List Int → Option (List Int)
  | [] => some []
  | [_] => none
  | a :: b :: rest => (stereoAvg rest).map (fun vs => (a + b) / 2 :: vs)

/-- `AudioResampler.discord_to_stt` (audio.py lines 15-28): 48kHz stereo →
48kHz mono by averaging the interleaved channel pair of each frame. -/
def discord_to_stt (pcm : List Nat) : Option (List Nat) :=
  (arrayH pcm).bind fun samples => (stereoAvg samples).bind toBytes

/-- `AudioResampler.tts_to_discord` (audio.py lines 30-40): 48kHz mono →
48kHz stereo by duplicating each sample for L+R. -/
def tts_to_discord (pcm : List Nat) : Option (List Nat) :=
  (arrayH pcm).bind fun samples => toBytes (samples.flatMap fun s => [s, s])

/-! ### PCMStreamSource (`src/media/audio.py` lines 82-163)

The mutable object is modelled as a state record; each method is a state
transformer.  The `threading.Lock` makes every method body atomic, so the
sequential state-passing semantics is exact for any interleaving of whole
method calls. -/

/-- 20ms at 48kHz stereo 16-bit. -/
def FRAME_SIZE : Nat := 3840

structure PCMState where
  buffer : List Nat
  finished : Bool
  interrupted : Bool
deriving DecidableEq

/-- A freshly constructed `PCMStreamSource()`. -/
def pcmInit : PCMState := ⟨[], false, false⟩

/-- `PCMStreamSource.feed` (audio.py lines 96-100). -/
def pcmFeed (s : PCMState) (d : List Nat) : PCMState :=
  if s.interrupted then s else { s with buffer := s.buffer ++ d }

/-- `PCMStreamSource._apply_fade_out` (audio.py lines 108-125).
`int(samples[i] * (1.0 - i / n))` computes a float product and truncates
toward zero; it is modelled by the exact rational value truncated toward
zero, `(s * (n - i)).tdiv n`.  For the concrete inputs evaluated in the
theorems below the float computation yields the same integers. -/
def applyFadeOut (buffer : List Nat) : List Nat :=
  let bufLen := buffer.length
  if bufLen < 4 then buffer
  else
    let fadeLen0 := min bufLen 960
    let fadeLen := fadeLen0 - fadeLen0 % 4
    if fadeLen < 4 then buffer
    else
      let start := bufLen - fadeLen
      match arrayH (buffer.drop start) with
      | none => buffer   -- unreachable: fadeLen is a positive multiple of 4
      | some samples =>
        let n := samples.length
        let faded := samples.mapIdx (fun i s => (s * ((n : Int) - i)).tdiv n)
        buffer.take start ++ faded.flatMap encodeI16

/-- `PCMStreamSource.finish` (audio.py lines 102-106). -/
def pcmFinish (s : PCMState) : PCMState :=
  { s with buffer := applyFadeOut s.buffer, finished := true }

/-- `PCMStreamSource.interrupt` (audio.py lines 127-131). -/
def pcmInterrupt (s : PCMState) : PCMState :=
  { s with interrupted := true, buffer := [] }

/-- `PCMStreamSource.read` (audio.py lines 133-154): returns the bytes
handed to the voice thread together with the successor state. -/
def pcmRead (s : PCMState) : List Nat × PCMState :=
  if s.interrupted then ([], s)
  else if FRAME_SIZE ≤ s.buffer.length then
    (s.buffer.take FRAME_SIZE, { s with buffer := s.buffer.drop FRAME_SIZE })
  else if s.finished then
    if s.buffer.isEmpty then ([], s)
    else (s.buffer ++ List.replicate (FRAME_SIZE - s.buffer.length) 0,
          { s with buffer := [] })
  else (List.replicate FRAME_SIZE 0, s)

/-- One public mutating call on a `PCMStreamSource`. -/
inductive PCMOp
  | feedOp (d : List Nat)
  | finishOp
  | readOp
  | interruptOp

def pcmApplyOp (s : PCMState) : PCMOp → PCMState
  | .feedOp d => pcmFeed s d
  | .finishOp => pcmFinish s
  | .readOp => (pcmRead s).2
  | .interruptOp => pcmInterrupt s

def pcmApplyOps (s : PCMState) (ops : List PCMOp) : PCMState :=
  ops.foldl pcmApplyOp s

/-- Iterated `read`, discarding the returned frames. -/
def pcmReadN : Nat → PCMState → PCMState
  | 0, s => s
  | n + 1, s => pcmReadN n (pcmRead s).2

/-! ### Codec lemmas -/

def i16Range (v : Int) : Prop := -32768 ≤ v ∧ v ≤ 32767

theorem decodeI16_range (lo hi : Nat) (hlo : lo < 256) (hhi : hi < 256) :
    i16Range (decodeI16 lo hi) := by
  unfold i16Range decodeI16
  split <;> omega

theorem decodeI16_encodeI16 (v : Int) (hv : i16Range v) :
    decodeI16 (((v % 65536).toNat) % 256) (((v % 65536).toNat) / 256) = v := by
  obtain ⟨h1, h2⟩ := hv
  unfold decodeI16
  split <;> omega

theorem encodeI16_valid (v : Int) : ∀ b ∈ encodeI16 v, b < 256 := by
  unfold encodeI16
  intro b hb
  simp only [List.mem_cons, List.mem_singleton, List.not_mem_nil, or_false] at hb
  rcases hb with h | h <;> subst h <;> omega

theorem arrayH_encode_cons (v : Int) (hv : i16Range v) (rest : List Nat) :
    arrayH (encodeI16 v ++ rest) = (arrayH rest).map (fun vs => v :: vs) := by
  show arrayH (((v % 65536).toNat) % 256 :: ((v % 65536).toNat) / 256 :: rest) = _
  rw [arrayH, decodeI16_encodeI16 v hv]

theorem encodeI16_decodeI16 (lo hi : Nat) (hlo : lo < 256) (hhi : hi < 256) :
    encodeI16 (decodeI16 lo hi) = [lo, hi] := by
  unfold encodeI16 decodeI16
  split
  · rw [show ((((lo : Int) + 256 * hi) % 65536).toNat % 256) = lo from by omega,
        show ((((lo : Int) + 256 * hi) % 65536).toNat / 256) = hi from by omega]
  · rw [show (((((lo : Int) + 256 * hi) - 65536) % 65536).toNat % 256) = lo from by omega,
        show (((((lo : Int) + 256 * hi) - 65536) % 65536).toNat / 256) = hi from by omega]

theorem arrayH_flatMap_encode : ∀ (vs : List Int), (∀ v ∈ vs, i16Range v) →
    arrayH (vs.flatMap encodeI16) = some vs
  | [], _ => rfl
  | v :: rest, h => by
    rw [List.flatMap_cons, arrayH_encode_cons v (h v (by simp)),
        arrayH_flatMap_encode rest (fun w hw => h w (by simp [hw])), Option.map_some']

theorem flatMap_encode_length (vs : List Int) :
    (vs.flatMap encodeI16).length = 2 * vs.length := by
  induction vs with
  | nil => rfl
  | cons v rest ih => simp [List.flatMap_cons, encodeI16, ih]; ring

theorem toBytes_of_range (vs : List Int) (h : ∀ v ∈ vs, i16Range v) :
    toBytes vs = some (vs.flatMap encodeI16) := by
  unfold toBytes
  rw [if_pos]
  rw [List.all_eq_true]
  intro v hv
  have := h v hv
  unfold i16Range at this
  simp [this.1, this.2]

/-- Decomposition of a valid even-length byte string into samples. -/
theorem bytesSplit (m : List Nat) : (∀ b ∈ m, b < 256) → m.length % 2 = 0 →
    ∃ ms, arrayH m = some ms ∧ ms.flatMap encodeI16 = m ∧
      (∀ v ∈ ms, i16Range v) ∧ 2 * ms.length = m.length := by
  induction m using arrayH.induct with
  | case1 =>
    intro _ _
    exact ⟨[], rfl, rfl, by simp, rfl⟩
  | case2 a =>
    intro _ h
    simp at h
  | case3 a b rest ih =>
    intro hv h
    have ha : a < 256 := hv a (by simp)
    have hb : b < 256 := hv b (by simp)
    obtain ⟨ms, h1, h2, h3, h4⟩ := ih (fun x hx => hv x (by simp [hx]))
      (by simp only [List.length_cons] at h; omega)
    refine ⟨decodeI16 a b :: ms, ?_, ?_, ?_, ?_⟩
    · rw [arrayH, h1, Option.map_some']
    · rw [List.flatMap_cons, encodeI16_decodeI16 a b ha hb, h2, List.cons_append,
          List.cons_append, List.nil_append]
    · intro v hvm
      rw [List.mem_cons] at hvm
      cases hvm with
      | inl hx => rw [hx]; exact decodeI16_range a b ha hb
      | inr hx => exact h3 v hx
    · simp only [List.length_cons]
      omega

theorem arrayH_none_of_odd (m : List Nat) : m.length % 2 = 1 → arrayH m = none := by
  induction m using arrayH.induct with
  | case1 => intro h; simp at h
  | case2 a => intro _; rfl
  | case3 a b rest ih =>
    intro h
    rw [arrayH, ih (by simp only [List.length_cons] at h; omega), Option.map_none']

theorem stereoAvg_dup : ∀ (vs : List Int),
    stereoAvg (vs.flatMap fun s => [s, s]) = some vs
  | [] => rfl
  | v :: rest => by
    have hv : (v + v) / 2 = v := by omega
    show stereoAvg (v :: v :: rest.flatMap fun s => [s, s]) = _
    rw [stereoAvg, stereoAvg_dup rest, Option.map_some', hv]

theorem stereoAvg_even (vs : List Int) : vs.length % 2 = 0 → (∀ v ∈ vs, i16Range v) →
    ∃ ws, stereoAvg vs = some ws ∧ (∀ w ∈ ws, i16Range w) ∧
      2 * ws.length = vs.length := by
  induction vs using stereoAvg.induct with
  | case1 =>
    intro _ _
    exact ⟨[], rfl, by simp, rfl⟩
  | case2 a =>
    intro h _
    simp at h
  | case3 a b rest ih =>
    intro h hv
    obtain ⟨ws, h1, h2, h3⟩ := ih (by simp only [List.length_cons] at h; omega)
      (fun x hx => hv x (by simp [hx]))
    refine ⟨(a + b) / 2 :: ws, ?_, ?_, ?_⟩
    · rw [stereoAvg, h1, Option.map_some']
    · intro w hw
      rw [List.mem_cons] at hw
      cases hw with
      | inl hx =>
        have hva := hv a (by simp)
        have hvb := hv b (by simp)
        unfold i16Range at hva hvb ⊢
        rw [hx]
        omega
      | inr hx => exact h2 w hx
    · simp only [List.length_cons]
      omega

theorem stereoAvg_none_of_odd (vs : List Int) :
    vs.length % 2 = 1 → stereoAvg vs = none := by
  induction vs using stereoAvg.induct with
  | case1 => intro h; simp at h
  | case2 a => intro _; rfl
  | case3 a b rest ih =>
    intro h
    rw [stereoAvg, ih (by simp only [List.length_cons] at h; omega), Option.map_none']


theorem flatMap_dup_length (vs : List Int) :
    (vs.flatMap fun s => [s, s]).length = 2 * vs.length := by
  induction vs with
  | nil => rfl
  | cons x rest ih =>
    simp only [List.flatMap_cons, List.length_append, List.length_cons,
      List.length_nil, ih]
    omega

/-! ### Spec-side definition used by claim C8 -/

/-- Modelled from the spec's words ("integer average, truncating"): the
truncating integer average of a left/right sample pair, i.e. integer
division rounding toward zero. -/
def truncatingAverage (a b : Int) : Int := (a + b).tdiv 2

/-! ### Claims C5, C8, C9 — AudioResampler -/

/-- C5: for every mono PCM byte buffer `m` with an even number of 16-bit
samples (byte length divisible by 4), converting mono→stereo with
`tts_to_discord` and back with `discord_to_stt` returns exactly `m`. -/
theorem c5_resample_roundtrip (m : List Nat) (hv : ∀ b ∈ m, b < 256)
    (h4 : m.length % 4 = 0) :
    (tts_to_discord m).bind discord_to_stt = some m := by
  obtain ⟨ms, h1, h2, h3, hlen⟩ := bytesSplit m hv (by omega)
  have hdup : ∀ v ∈ (ms.flatMap fun s => [s, s]), i16Range v := by
    intro v hvmem
    rw [List.mem_flatMap] at hvmem
    obtain ⟨w, hw, hv2⟩ := hvmem
    have hveq : v = w := by
      rcases List.mem_cons.mp hv2 with hx | hx
      · exact hx
      · simpa using hx
    rw [hveq]
    exact h3 w hw
  have htts : tts_to_discord m
      = some ((ms.flatMap fun s => [s, s]).flatMap encodeI16) := by
    unfold tts_to_discord
    rw [h1, Option.some_bind, toBytes_of_range _ hdup]
  rw [htts, Option.some_bind]
  unfold discord_to_stt
  rw [arrayH_flatMap_encode _ hdup, Option.some_bind, stereoAvg_dup,
      Option.some_bind, toBytes_of_range _ h3, h2]

/-- C5 witness at a concrete input. -/
theorem c5_resample_roundtrip_witness :
    (tts_to_discord [100, 0, 200, 0]).bind discord_to_stt = some [100, 0, 200, 0] :=
  c5_resample_roundtrip [100, 0, 200, 0] (by decide) (by decide)

/-- C8 counterexample: the claim calls the channel average a *truncating*
integer average, but the code floor-divides.  On the sample pair
(-1, -2) — bytes `[255, 255, 254, 255]` — the code produces -2 (bytes
`[254, 255]`), while the truncating average is -1. -/
theorem c8_average_counterexample :
    discord_to_stt [255, 255, 254, 255] = some [254, 255] ∧
    decodeI16 254 255 = -2 ∧
    truncatingAverage (decodeI16 255 255) (decodeI16 254 255) = -1 ∧
    ((-2 : Int) ≠ -1) := by
  refine ⟨by decide, by decide, by decide, by decide⟩

/-- C8 (amended): `discord_to_stt` floor-averages each interleaved pair
(which coincides with truncation for non-negative sums, e.g. [100,200]↦[150])
and halves the byte length — 3840-byte frames give 1920 bytes; and
`tts_to_discord` doubles the byte length of any mono buffer. -/
theorem c8_resampler_arithmetic :
    (∀ b : List Nat, (∀ x ∈ b, x < 256) → b.length % 4 = 0 →
        ∃ r, discord_to_stt b = some r ∧ 2 * r.length = b.length) ∧
    (∀ m : List Nat, (∀ x ∈ m, x < 256) → m.length % 2 = 0 →
        ∃ r, tts_to_discord m = some r ∧ r.length = 2 * m.length) ∧
    (∀ a b : Int, i16Range a → i16Range b →
        discord_to_stt (encodeI16 a ++ encodeI16 b)
          = some (encodeI16 ((a + b) / 2))) ∧
    discord_to_stt [100, 0, 200, 0] = some [150, 0] := by
  refine ⟨?_, ?_, ?_, by decide⟩
  · intro b hv h4
    obtain ⟨ms, h1, h2, h3, hlen⟩ := bytesSplit b hv (by omega)
    obtain ⟨ws, g1, g2, g3⟩ := stereoAvg_even ms (by omega) h3
    refine ⟨ws.flatMap encodeI16, ?_, ?_⟩
    · unfold discord_to_stt
      rw [h1, Option.some_bind, g1, Option.some_bind, toBytes_of_range _ g2]
    · rw [flatMap_encode_length]
      omega
  · intro m hv h2'
    obtain ⟨ms, h1, h2, h3, hlen⟩ := bytesSplit m hv h2'
    have hdup : ∀ v ∈ (ms.flatMap fun s => [s, s]), i16Range v := by
      intro v hvmem
      rw [List.mem_flatMap] at hvmem
      obtain ⟨w, hw, hv2⟩ := hvmem
      have hveq : v = w := by
        rcases List.mem_cons.mp hv2 with hx | hx
        · exact hx
        · simpa using hx
      rw [hveq]
      exact h3 w hw
    refine ⟨(ms.flatMap fun s => [s, s]).flatMap encodeI16, ?_, ?_⟩
    · unfold tts_to_discord
      rw [h1, Option.some_bind, toBytes_of_range _ hdup]
    · rw [flatMap_encode_length, flatMap_dup_length]
      omega
  · intro a b ha hb
    have havg : i16Range ((a + b) / 2) := by
      unfold i16Range at ha hb ⊢
      omega
    have hb1 : arrayH (encodeI16 b) = some [b] := by
      rw [show encodeI16 b = encodeI16 b ++ [] from (List.append_nil _).symm,
          arrayH_encode_cons b hb]
      rfl
    unfold discord_to_stt
    rw [arrayH_encode_cons a ha, hb1, Option.map_some', Option.some_bind]
    have havgs : stereoAvg [a, b] = some [(a + b) / 2] := by
      rw [stereoAvg, stereoAvg, Option.map_some']
    rw [havgs, Option.some_bind, toBytes_of_range _ (by
          intro v hv
          have : v = (a + b) / 2 := by simpa using hv
          rw [this]; exact havg)]
    simp only [List.flatMap_cons, List.flatMap_nil, List.append_nil]

/-- C8 amended-claim witness at concrete inputs. -/
theorem c8_resampler_arithmetic_witness :
    (∃ r, discord_to_stt (List.replicate 3840 0) = some r ∧ 2 * r.length = 3840) ∧
    discord_to_stt (encodeI16 100 ++ encodeI16 200) = some (encodeI16 150) := by
  constructor
  · obtain ⟨r, hr1, hr2⟩ := c8_resampler_arithmetic.1 (List.replicate 3840 0)
      (by intro x hx; rw [List.eq_of_mem_replicate hx]; omega)
      (by rw [List.length_replicate])
    rw [List.length_replicate] at hr2
    exact ⟨r, hr1, hr2⟩
  · exact c8_resampler_arithmetic.2.2.1 100 200 ⟨by decide, by decide⟩
      ⟨by decide, by decide⟩

/-- C9 counterexample: the 2-byte input `[0, 0]` has byte length divisible
by 2 (one whole 16-bit sample), yet `discord_to_stt` raises
(IndexError in the averaging generator), modelled as `none`. -/
theorem c9_totality_counterexample :
    ([0, 0] : List Nat).length % 2 = 0 ∧ discord_to_stt [0, 0] = none := by
  refine ⟨by decide, by decide⟩

/-- C9 (amended): on valid byte strings, `tts_to_discord` returns normally
exactly when the byte length is divisible by 2, while `discord_to_stt`
additionally needs a whole number of stereo pairs: it returns normally
exactly when the byte length is divisible by 4. -/
theorem c9_resampler_totality (b : List Nat) (hv : ∀ x ∈ b, x < 256) :
    ((tts_to_discord b).isSome ↔ b.length % 2 = 0) ∧
    ((discord_to_stt b).isSome ↔ b.length % 4 = 0) := by
  constructor
  · constructor
    · intro h
      by_contra hodd
      rw [tts_to_discord, arrayH_none_of_odd b (by omega), Option.none_bind] at h
      simp at h
    · intro h2'
      obtain ⟨ms, h1, h2, h3, hlen⟩ := bytesSplit b hv h2'
      have hdup : ∀ v ∈ (ms.flatMap fun s => [s, s]), i16Range v := by
        intro v hvmem
        rw [List.mem_flatMap] at hvmem
        obtain ⟨w, hw, hv2⟩ := hvmem
        have hveq : v = w := by
          rcases List.mem_cons.mp hv2 with hx | hx
          · exact hx
          · simpa using hx
        rw [hveq]
        exact h3 w hw
      rw [tts_to_discord, h1, Option.some_bind, toBytes_of_range _ hdup]
      rfl
  · constructor
    · intro h
      by_contra h4
      rcases Nat.mod_two_eq_zero_or_one b.length with heven | hodd
      · obtain ⟨ms, h1, h2, h3, hlen⟩ := bytesSplit b hv heven
        rw [discord_to_stt, h1, Option.some_bind,
            stereoAvg_none_of_odd ms (by omega), Option.none_bind] at h
        simp at h
      · rw [discord_to_stt, arrayH_none_of_odd b hodd, Option.none_bind] at h
        simp at h
    · intro h4
      obtain ⟨ms, h1, h2, h3, hlen⟩ := bytesSplit b hv (by omega)
      obtain ⟨ws, g1, g2, g3⟩ := stereoAvg_even ms (by omega) h3
      rw [discord_to_stt, h1, Option.some_bind, g1, Option.some_bind,
          toBytes_of_range _ g2]
      rfl

/-- C9 amended-claim witness at a concrete input. -/
theorem c9_resampler_totality_witness :
    (discord_to_stt [1, 2]).isSome = false ∧ (tts_to_discord [1, 2]).isSome = true := by
  have h := c9_resampler_totality [1, 2] (by decide)
  constructor
  · rw [Bool.eq_false_iff]
    intro hs
    have := h.2.mp hs
    simp at this
  · exact h.1.mpr (by decide)

/-! ### PCMStreamSource lemmas -/

theorem applyFadeOut_nil : applyFadeOut [] = [] := rfl

/-- A drained, finished, non-interrupted source reads as end-of-stream and
stays unchanged. -/
theorem pcmRead_drained (s : PCMState) (h1 : s.interrupted = false)
    (h2 : s.finished = true) (h3 : s.buffer = []) : pcmRead s = ([], s) := by
  unfold pcmRead
  rw [h1, h2, h3]
  simp [FRAME_SIZE]

theorem pcmReadN_drained (s : PCMState) (h1 : s.interrupted = false)
    (h2 : s.finished = true) (h3 : s.buffer = []) : ∀ n, pcmReadN n s = s := by
  intro n
  induction n with
  | zero => rfl
  | succ n ih =>
    show pcmReadN n (pcmRead s).2 = s
    rw [pcmRead_drained s h1 h2 h3]
    exact ih

/-- Interruption is a trap: the cleared-buffer interrupted configuration is
preserved by every public call. -/
theorem pcmApplyOps_interrupted (ops : List PCMOp) :
    ∀ (t : PCMState), t.interrupted = true → t.buffer = [] →
      (pcmApplyOps t ops).interrupted = true ∧ (pcmApplyOps t ops).buffer = [] := by
  induction ops with
  | nil => intro t h1 h2; exact ⟨h1, h2⟩
  | cons op rest ih =>
    intro t h1 h2
    show (pcmApplyOps (pcmApplyOp t op) rest).interrupted = true ∧
      (pcmApplyOps (pcmApplyOp t op) rest).buffer = []
    cases op with
    | feedOp d =>
      have hfeed : pcmFeed t d = t := by
        unfold pcmFeed
        rw [h1]
        rfl
      rw [show pcmApplyOp t (.feedOp d) = pcmFeed t d from rfl, hfeed]
      exact ih t h1 h2
    | finishOp =>
      refine ih _ h1 ?_
      show applyFadeOut t.buffer = []
      rw [h2, applyFadeOut_nil]
    | readOp =>
      have hread : pcmRead t = ([], t) := by
        unfold pcmRead
        rw [h1]
        rfl
      rw [show pcmApplyOp t (.readOp) = (pcmRead t).2 from rfl, hread]
      exact ih t h1 h2
    | interruptOp =>
      exact ih _ rfl rfl

/-! ### Claims C2, C3, C4, C10 — PCMStreamSource -/

/-- C2: `read()` returns empty bytes when interrupted; a full frame of
buffered data when at least one frame is buffered; when finished with a
non-empty sub-frame remainder, the zero-padded remainder exactly once and
empty bytes on every read thereafter; a full frame of zeros on underrun
(not finished, buffer below a frame); and in particular a full frame of
zeros on a freshly constructed source. -/
theorem c2_read_contract (s : PCMState) :
    (s.interrupted = true → pcmRead s = ([], s)) ∧
    (s.interrupted = false → FRAME_SIZE ≤ s.buffer.length →
      pcmRead s = (s.buffer.take FRAME_SIZE,
        { s with buffer := s.buffer.drop FRAME_SIZE })) ∧
    (s.interrupted = false → s.finished = true → s.buffer ≠ [] →
      s.buffer.length < FRAME_SIZE →
      (pcmRead s).1 = s.buffer ++ List.replicate (FRAME_SIZE - s.buffer.length) 0 ∧
      (∀ n, (pcmRead (pcmReadN n (pcmRead s).2)).1 = [])) ∧
    (s.interrupted = false → s.finished = false → s.buffer.length < FRAME_SIZE →
      (pcmRead s).1 = List.replicate FRAME_SIZE 0) ∧
    (pcmRead pcmInit).1 = List.replicate FRAME_SIZE 0 := by
  refine ⟨?_, ?_, ?_, ?_, rfl⟩
  · intro h
    unfold pcmRead
    rw [h]
    rfl
  · intro h1 h2
    unfold pcmRead
    rw [h1]
    rw [if_neg (by simp), if_pos h2]
  · intro h1 h2 h3 h4
    have hstep : pcmRead s
        = (s.buffer ++ List.replicate (FRAME_SIZE - s.buffer.length) 0,
           { s with buffer := [] }) := by
      unfold pcmRead
      rw [h1, h2]
      rw [if_neg (by simp), if_neg (by omega), if_pos rfl,
          if_neg (by simpa [List.isEmpty_iff] using h3)]
    have h5 : ((pcmRead s).2).interrupted = false := by rw [hstep]; exact h1
    have h6 : ((pcmRead s).2).finished = true := by rw [hstep]; exact h2
    have h7 : ((pcmRead s).2).buffer = [] := by rw [hstep]
    refine ⟨by rw [hstep], ?_⟩
    intro n
    rw [pcmReadN_drained _ h5 h6 h7 n, pcmRead_drained _ h5 h6 h7]
  · intro h1 h2 h3
    unfold pcmRead
    rw [h1, h2]
    rw [if_neg (by simp), if_neg (by omega), if_neg (by simp)]

/-- C2 witness: the contract applied at concrete states — an interrupted
source, a finished source holding one byte, and a fresh source. -/
theorem c2_read_contract_witness :
    pcmRead (pcmInterrupt pcmInit) = ([], pcmInterrupt pcmInit) ∧
    (pcmRead (⟨[5], true, false⟩ : PCMState)).1
      = [5] ++ List.replicate (FRAME_SIZE - 1) 0 ∧
    (pcmRead pcmInit).1 = List.replicate FRAME_SIZE 0 :=
  ⟨(c2_read_contract (pcmInterrupt pcmInit)).1 rfl,
   ((c2_read_contract ⟨[5], true, false⟩).2.2.1 rfl rfl (by simp)
      (by decide)).1,
   (c2_read_contract pcmInit).2.2.2.2⟩

/-- C3: evaluation of the code at the repository's own test input
(`test_finish_drains_remaining_with_padding`): feed 100 bytes of 0x42,
`finish()`, then `read()`.  The returned frame is full-sized and the second
read is empty, but the first 100 bytes do **not** equal the fed data —
`finish()` fades the whole sub-window buffer (byte 2 becomes 238), whereas
the spec, the claim and the repository's own test require the fade to be
skipped for buffers shorter than the 960-byte fade window. -/
theorem c3_fade_code_evaluation :
    ((pcmRead (pcmFinish (pcmFeed pcmInit (List.replicate 100 66)))).1).length
        = FRAME_SIZE ∧
    ((pcmRead (pcmFinish (pcmFeed pcmInit (List.replicate 100 66)))).1).take 100
        ≠ List.replicate 100 66 ∧
    ((pcmRead (pcmFinish (pcmFeed pcmInit (List.replicate 100 66)))).1).getD 2 0
        = 238 ∧
    (pcmRead (pcmRead (pcmFinish (pcmFeed pcmInit
        (List.replicate 100 66)))).2).1 = [] := by
  have hfeed : pcmFeed pcmInit (List.replicate 100 66)
      = ⟨List.replicate 100 66, false, false⟩ := by
    unfold pcmFeed pcmInit
    simp
  set buf : List Nat := applyFadeOut (List.replicate 100 66) with hbufdef
  have hfin : pcmFinish (pcmFeed pcmInit (List.replicate 100 66))
      = ⟨buf, true, false⟩ := by
    rw [hfeed]
    rfl
  have hlen : buf.length = 100 := by decide
  have hread : pcmRead (⟨buf, true, false⟩ : PCMState)
      = (buf ++ List.replicate (FRAME_SIZE - buf.length) 0,
         ⟨[], true, false⟩) := by
    unfold pcmRead
    rw [if_neg (by simp), if_neg (by rw [hlen]; decide), if_pos rfl,
        if_neg (by
          simp only [List.isEmpty_eq_true]
          intro hc
          have hb : buf = [] := hc
          rw [hb] at hlen
          simp at hlen)]
  have hfirst : (pcmRead (pcmFinish (pcmFeed pcmInit (List.replicate 100 66)))).1
      = buf ++ List.replicate (FRAME_SIZE - buf.length) 0 := by
    rw [hfin, hread]
  refine ⟨?_, ?_, ?_, ?_⟩
  · rw [hfirst, List.length_append, List.length_replicate, hlen]
    rfl
  · rw [hfirst, ← hlen, List.take_left, hlen]
    decide
  · rw [hfirst, List.getD_append _ _ _ _ (by rw [hlen]; omega)]
    decide
  · rw [hfin, hread]
    exact congrArg Prod.fst (pcmRead_drained ⟨[], true, false⟩ rfl rfl rfl)

/-- C4: after `interrupt()`, any subsequent sequence of public calls leaves
the buffer cleared and the interrupted flag set, `read()` permanently
returns empty bytes (regardless of the finished flag — interrupt wins),
`feed()` is silently ignored, and `interrupt()` is idempotent. -/
theorem c4_interrupt_permanent (s : PCMState) (ops : List PCMOp) :
    (pcmApplyOps (pcmInterrupt s) ops).buffer = [] ∧
    (pcmApplyOps (pcmInterrupt s) ops).interrupted = true ∧
    (pcmRead (pcmApplyOps (pcmInterrupt s) ops)).1 = [] ∧
    (∀ d, pcmFeed (pcmApplyOps (pcmInterrupt s) ops) d
        = pcmApplyOps (pcmInterrupt s) ops) ∧
    pcmInterrupt (pcmInterrupt s) = pcmInterrupt s := by
  obtain ⟨hint, hbuf⟩ := pcmApplyOps_interrupted ops (pcmInterrupt s) rfl rfl
  refine ⟨hbuf, hint, ?_, ?_, rfl⟩
  · unfold pcmRead
    rw [hint]
    rfl
  · intro d
    unfold pcmFeed
    rw [hint]
    rfl

/-- C10: `finish()` does not disable `feed` — with no interruption, data fed
after `finish()` is still appended to the buffer, and a subsequent `read()`
returns that post-finish data as a frame. -/
theorem c10_feed_after_finish (s : PCMState) (d : List Nat)
    (h : s.interrupted = false) :
    (pcmFinish s).finished = true ∧
    pcmFeed (pcmFinish s) d
      = { pcmFinish s with buffer := (pcmFinish s).buffer ++ d } ∧
    (s.buffer = [] → d.length = FRAME_SIZE →
      (pcmRead (pcmFeed (pcmFinish s) d)).1 = d) := by
  refine ⟨rfl, ?_, ?_⟩
  · unfold pcmFeed
    rw [show (pcmFinish s).interrupted = s.interrupted from rfl, h]
    simp [pcmFinish, h]
  · intro hbuf hd
    have hfeed : pcmFeed (pcmFinish s) d
        = { pcmFinish s with buffer := d } := by
      unfold pcmFeed
      rw [show (pcmFinish s).interrupted = s.interrupted from rfl, h,
          show (pcmFinish s).buffer = applyFadeOut s.buffer from rfl, hbuf,
          applyFadeOut_nil]
      simp [pcmFinish, h]
    rw [hfeed]
    unfold pcmRead
    rw [show ({ pcmFinish s with buffer := d } : PCMState).interrupted
          = s.interrupted from rfl, h]
    rw [if_neg (by simp), if_pos (by simp [hd])]
    rw [show ({ pcmFinish s with buffer := d } : PCMState).buffer = d from rfl,
        ← hd, List.take_length]

/-- C10 witness at a concrete input. -/
theorem c10_feed_after_finish_witness :
    (pcmRead (pcmFeed (pcmFinish pcmInit) (List.replicate FRAME_SIZE 7))).1
      = List.replicate FRAME_SIZE 7 :=
  (c10_feed_after_finish pcmInit (List.replicate FRAME_SIZE 7) rfl).2.2 rfl
    (by rw [List.length_replicate])

/-! ### UserAudioStream buffering (`src/discord/voice.py` lines 131-138,
176-179, 193-197)

While the STT connection is not ready (`_connected_event` not set),
`feed_audio` buffers the resampled mono chunk subject to the byte cap, and
a successful `ensure_connected` flushes the buffered chunks in order and
clears the buffer.  The barge-in check, silence timer and the network send
itself have no effect on the buffer and are elided. -/

/-- `UserAudioStream.__init__`: cap of ~20s of 48kHz mono 16-bit audio. -/
def maxBufferBytes : Nat := 1920000

structure AudioBufState where
  chunks : List (List Nat)
  bufBytes : Nat
deriving DecidableEq

/-- The buffering branch of `feed_audio` (voice.py lines 193-197): append
the resampled chunk only while the accumulated byte count is below the
cap. -/
def bufferWhileDisconnected (st : AudioBufState) (mono : List Nat) : AudioBufState :=
  if st.bufBytes < maxBufferBytes then
    ⟨st.chunks ++ [mono], st.bufBytes + mono.length⟩
  else st

/-- `feed_audio` while disconnected: the frame is first resampled with
`AudioResampler.discord_to_stt` (raising on malformed frames), then
buffered. -/
def feedAudioDisconnected (st : AudioBufState) (pcmStereo : List Nat) :
    Option AudioBufState :=
  (discord_to_stt pcmStereo).map (bufferWhileDisconnected st)

/-- The flush performed by `ensure_connected` after a successful connect
(voice.py lines 176-179): every buffered chunk is sent in arrival order,
then the buffer and its byte count are cleared.  Returns the chunk list
handed to `send_audio`, in order, with the successor state. -/
def flushOnConnect (st : AudioBufState) : List (List Nat) × AudioBufState :=
  (st.chunks, ⟨[], 0⟩)

/-! ### Claim C7 -/

/-- C7: while disconnected, each frame's resampled chunk is appended only
while the byte count is below the 1920000-byte cap and is discarded once
the cap is reached, so the buffered memory stays bounded for any feed
sequence; the flush on connect hands the buffered chunks over in arrival
order and clears the buffer. -/
theorem c7_buffer_cap (st : AudioBufState) (mono : List Nat) :
    (∀ frame m, discord_to_stt frame = some m →
        feedAudioDisconnected st frame = some (bufferWhileDisconnected st m)) ∧
    (st.bufBytes < maxBufferBytes →
        bufferWhileDisconnected st mono
          = ⟨st.chunks ++ [mono], st.bufBytes + mono.length⟩) ∧
    (maxBufferBytes ≤ st.bufBytes → bufferWhileDisconnected st mono = st) ∧
    (∀ (monos : List (List Nat)) (L : Nat), (∀ c ∈ monos, c.length ≤ L) →
        st.bufBytes < maxBufferBytes + L →
        (monos.foldl bufferWhileDisconnected st).bufBytes < maxBufferBytes + L) ∧
    flushOnConnect st = (st.chunks, ⟨[], 0⟩) := by
  refine ⟨?_, ?_, ?_, ?_, rfl⟩
  · intro frame m hm
    unfold feedAudioDisconnected
    rw [hm, Option.map_some']
  · intro h
    unfold bufferWhileDisconnected
    rw [if_pos h]
  · intro h
    unfold bufferWhileDisconnected
    rw [if_neg (by omega)]
  · intro monos
    induction monos generalizing st with
    | nil => intro L _ h; exact h
    | cons c rest ih =>
      intro L hc h
      show (rest.foldl bufferWhileDisconnected
        (bufferWhileDisconnected st c)).bufBytes < maxBufferBytes + L
      refine ih _ L (fun x hx => hc x (by simp [hx])) ?_
      unfold bufferWhileDisconnected
      have hcl : c.length ≤ L := hc c (by simp)
      split <;> simp <;> omega

/-- C7 witness at concrete inputs: one append below the cap, one discard at
the cap, and a flush. -/
theorem c7_buffer_cap_witness :
    bufferWhileDisconnected ⟨[], 0⟩ [1, 2] = ⟨[[1, 2]], 2⟩ ∧
    bufferWhileDisconnected ⟨[[1, 2]], maxBufferBytes⟩ [3] = ⟨[[1, 2]], maxBufferBytes⟩ ∧
    flushOnConnect ⟨[[1, 2]], 2⟩ = ([[1, 2]], ⟨[], 0⟩) := by
  refine ⟨?_, ?_, (c7_buffer_cap ⟨[[1, 2]], 2⟩ []).2.2.2.2⟩
  · have := (c7_buffer_cap ⟨[], 0⟩ [1, 2]).2.1 (by decide)
    simpa using this
  · have := (c7_buffer_cap ⟨[[1, 2]], maxBufferBytes⟩ [3]).2.2.1 (Nat.le_refl _)
    simpa using this

/-! ### UserAudioStream.ensure_connected single-flight (voice.py 140-179)

`ensure_connected` runs on asyncio's single-threaded cooperative
scheduler: code between two `await` suspension points executes atomically.
Two concurrent calls on the same stream are modelled as two coroutines,
each a program counter over the suspension points, interleaved by an
arbitrary schedule; the `connect()` outcome of each is a parameter.  A
run's ghost fields observe how many connection attempts were started and
whether some attempt failed before the other call had begun (the only way
a second attempt can legitimately start — such calls no longer overlap).
-/

/-- Control location of one `ensure_connected()` execution between its
suspension points (voice.py lines 140-179). -/
inductive ConnPc
  | entry        -- about to run the body from the top (lines 142-163)
  | closingDead  -- suspended in `await self._stt.close()` (line 151)
  | waiting      -- suspended in `await self._connected_event.wait()` (line 156)
  | connectAwait -- suspended in `await self._stt.connect()` (line 163)
  | failClosing  -- suspended in `await self._stt.close()` (line 167)
  | done         -- returned
deriving DecidableEq, Fintype

/-- Ghost count of started connection attempts, saturating at "more than
one" (the claims only distinguish zero / exactly one / more). -/
inductive AttemptCount
  | zero
  | one
  | many
deriving DecidableEq, Fintype

def bumpAttempts : AttemptCount → AttemptCount
  | .zero => .one
  | .one => .many
  | .many => .many

/-- Shared per-stream state plus the two concurrent calls' control points
and two ghost observers (`attempts`, `failedEarly`). -/
structure ConnState where
  eventSet : Bool    -- self._connected_event.is_set()
  connecting : Bool  -- self._connecting
  stt : Option Bool  -- self._stt, payload = its _connected flag
  attempts : AttemptCount
  failedEarly : Bool -- ghost: a connect failed before the other call began
  pc1 : ConnPc
  pc2 : ConnPc
deriving DecidableEq

def pcOf (s : ConnState) (who : Bool) : ConnPc := if who then s.pc1 else s.pc2

def setPc (s : ConnState) (who : Bool) (pc : ConnPc) : ConnState :=
  if who then { s with pc1 := pc } else { s with pc2 := pc }

/-- Lines 154-163: `if self._connecting:` wait for the in-flight attempt,
else start a fresh attempt.  This runs atomically: there is no suspension
point between reading `_connecting` and setting it. -/
def connCheck (s : ConnState) (who : Bool) : ConnState :=
  if s.connecting then setPc s who .waiting
  else
    let s' : ConnState :=
      { s with connecting := true, stt := some false,
               attempts := bumpAttempts s.attempts }
    setPc s' who .connectAwait

/-- One atomic step of coroutine `who`: the code between two suspension
points, or the resolution of the awaited operation.  `outcome` says
whether this coroutine's `connect()` would succeed. -/
def connStep (s : ConnState) (who : Bool) (outcome : Bool) : ConnState :=
  match pcOf s who with
  | .entry =>
    if s.eventSet && (s.stt == some true) then setPc s who .done
    else if s.eventSet then
      let s' := { s with eventSet := false, connecting := false }
      match s'.stt with
      | some _ => setPc s' who .closingDead
      | none => connCheck s' who
    else connCheck s who
  | .closingDead => connCheck { s with stt := none } who
  | .waiting => if s.eventSet then setPc s who .done else s
  | .connectAwait =>
    if outcome then
      setPc { s with eventSet := true, connecting := false, stt := some true }
        who .done
    else
      let s' := if pcOf s (!who) == .entry then { s with failedEarly := true }
                else s
      match s'.stt with
      | some _ => setPc s' who .failClosing
      | none => setPc { s' with connecting := false } who .done
  | .failClosing => setPc { s with stt := none, connecting := false } who .done
  | .done => s

/-- Both calls pending on a freshly created `UserAudioStream`. -/
def connInit : ConnState := ⟨false, false, none, .zero, false, .entry, .entry⟩

def connRun (sched : List Bool) (out1 out2 : Bool) : ConnState :=
  sched.foldl (fun s who => connStep s who (if who then out1 else out2)) connInit

/-- The coroutine holds an unresolved or just-failed-but-uncleaned
connection attempt. -/
def inMid (pc : ConnPc) : Bool :=
  decide (pc = .connectAwait) || decide (pc = .failClosing)

def connInvB (s : ConnState) : Bool :=
  !decide (s.pc1 = .closingDead) && !decide (s.pc2 = .closingDead) &&
  (s.connecting == (inMid s.pc1 || inMid s.pc2)) &&
  !(inMid s.pc1 && inMid s.pc2) &&
  (!s.eventSet || (decide (s.stt = some true) && !s.connecting &&
      (decide (s.pc1 = .done) || decide (s.pc2 = .done)))) &&
  (!decide (s.pc1 = .waiting) || inMid s.pc2 || decide (s.pc2 = .done)) &&
  (!decide (s.pc2 = .waiting) || inMid s.pc1 || decide (s.pc1 = .done)) &&
  (s.failedEarly ||
    ((s.attempts == (if decide (s.pc1 = .entry) && decide (s.pc2 = .entry)
        then .zero else .one)) &&
     (s.eventSet || s.connecting ||
       (!(decide (s.pc1 = .done) && decide (s.pc2 = .entry)) &&
        !(decide (s.pc2 = .done) && decide (s.pc1 = .entry)))) &&
     (!decide (s.pc1 = .failClosing) || !decide (s.pc2 = .entry)) &&
     (!decide (s.pc2 = .failClosing) || !decide (s.pc1 = .entry))))

theorem connStep_inv :
    ∀ (e c : Bool) (st : Option Bool) (a : AttemptCount) (f : Bool)
      (p1 p2 : ConnPc) (who outcome : Bool),
      connInvB ⟨e, c, st, a, f, p1, p2⟩ = true →
      connInvB (connStep ⟨e, c, st, a, f, p1, p2⟩ who outcome) = true := by
  decide


theorem connInit_inv : connInvB connInit = true := by decide

theorem connRun_inv (sched : List Bool) (out1 out2 : Bool) :
    connInvB (connRun sched out1 out2) = true := by
  suffices h : ∀ (l : List Bool) (s : ConnState), connInvB s = true →
      connInvB (l.foldl (fun s who => connStep s who (if who then out1 else out2)) s)
        = true by
    exact h sched connInit connInit_inv
  intro l
  induction l with
  | nil => intro s hs; exact hs
  | cons w rest ih =>
    intro s hs
    refine ih _ ?_
    obtain ⟨e, c, st, a, f, p1, p2⟩ := s
    exact connStep_inv e c st a f p1 p2 w _ hs

theorem connInvB_consequences (s : ConnState) (h : connInvB s = true) :
    ¬(s.pc1 = .connectAwait ∧ s.pc2 = .connectAwait) ∧
    (s.failedEarly = false → s.attempts ≠ .many) ∧
    (s.failedEarly = false → (s.pc1 ≠ .entry ∨ s.pc2 ≠ .entry) →
      s.attempts = .one) := by
  obtain ⟨e, c, st, a, f, p1, p2⟩ := s
  revert h
  revert e c st a f p1 p2
  decide

/-- C6: for every interleaving of two concurrent `ensure_connected()`
calls on a fresh stream and any connect outcomes: at most one outstanding
connection attempt exists at any time (every reachable state is the final
state of a prefix schedule, so the first conjunct covers the whole run); a
call that observes the other's attempt in flight waits instead of opening
a duplicate, so unless an attempt failed while the other call had not yet
begun, at most one attempt is ever started — and exactly one once either
call has begun executing. -/
theorem c6_single_flight (sched : List Bool) (out1 out2 : Bool) :
    ¬((connRun sched out1 out2).pc1 = .connectAwait ∧
      (connRun sched out1 out2).pc2 = .connectAwait) ∧
    ((connRun sched out1 out2).failedEarly = false →
      (connRun sched out1 out2).attempts ≠ .many) ∧
    ((connRun sched out1 out2).failedEarly = false →
      ((connRun sched out1 out2).pc1 ≠ .entry ∨
       (connRun sched out1 out2).pc2 ≠ .entry) →
      (connRun sched out1 out2).attempts = .one) :=
  connInvB_consequences _ (connRun_inv sched out1 out2)

theorem c6_single_flight_witness :
    (connRun [true, false] true true).attempts = .one :=
  (c6_single_flight [true, false] true true).2.2 (by decide) (Or.inl (by decide))



/-! ### _TagStripper (`src/discord/voice.py` lines 36-114) -/

def openTts : List Char := ['[', 't', 't', 's', ']']
def openTti : List Char := ['[', 't', 't', 'i', ']']
def closeTts : List Char := ['[', '/', 't', 't', 's', ']']
def closeTti : List Char := ['[', '/', 't', 't', 'i', ']']

/-- `_KNOWN_TAGS` (voice.py line 41). -/
def knownTags : List (List Char) := [openTti, closeTti, openTts, closeTts]

/-- Models Python `str.find(needle)`: index of the first occurrence, `none`
for -1. -/
def findSub (needle : List Char) : List Char → Option Nat
  | [] => if needle.isEmpty then some 0 else none
  | c :: rest =>
    if needle.isPrefixOf (c :: rest) then some 0
    else (findSub needle rest).map (· + 1)

/-- `_TagStripper._drain` (voice.py lines 65-114), written with an explicit
fuel so that it computes by kernel reduction; each loop iteration either
breaks or shortens the buffer, so `buf.length + 1` units of fuel are enough
(`drainF_congr` below).  Returns (emitted text, new buffer, new _in_tti). -/
def drainF : Nat → List Char → Bool → List Char × List Char × Bool
  | 0, buf, inTti => ([], buf, inTti)
  | fuel + 1, buf, inTti =>
    if buf.isEmpty then ([], buf, inTti)
    else if inTti then
      match findSub closeTti buf with
      | some i => drainF fuel (buf.drop (i + 6)) false
      | none =>
        -- keep the last `_MAX_TAG_LEN - 1` chars for a split closing tag
        ([], if 5 < buf.length then buf.drop (buf.length - 5) else buf, true)
    else
      match buf.findIdx? (fun c => c == '[') with
      | none => (buf, [], false)
      | some p =>
        let pre := buf.take p
        let rest := buf.drop p
        if openTti.isPrefixOf rest then
          let r := drainF fuel (rest.drop 5) true
          (pre ++ r.1, r.2)
        else if openTts.isPrefixOf rest then
          let r := drainF fuel (rest.drop 5) false
          (pre ++ r.1, r.2)
        else if closeTts.isPrefixOf rest then
          let r := drainF fuel (rest.drop 6) false
          (pre ++ r.1, r.2)
        else if closeTti.isPrefixOf rest then
          let r := drainF fuel (rest.drop 6) false
          (pre ++ r.1, r.2)
        else if knownTags.any (fun tag => rest.isPrefixOf tag) then
          (pre, rest, false)
        else
          let r := drainF fuel (rest.drop 1) false
          (pre ++ '[' :: r.1, r.2)

def drain (buf : List Char) (inTti : Bool) : List Char × List Char × Bool :=
  drainF (buf.length + 1) buf inTti

theorem drainF_congr : ∀ (f1 f2 : Nat) (buf : List Char) (t : Bool),
    buf.length < f1 → buf.length < f2 → drainF f1 buf t = drainF f2 buf t := by
  intro f1
  induction f1 with
  | zero => intro f2 buf t h1 _; omega
  | succ f ih =>
    intro f2 buf t h1 h2
    obtain ⟨g, rfl⟩ : ∃ g, f2 = g + 1 := ⟨f2 - 1, by omega⟩
    by_cases hb : buf.isEmpty
    · simp only [drainF, if_pos hb]
    · have hlen : 0 < buf.length := by
        cases buf
        · simp at hb
        · simp
      cases t with
      | true =>
        simp only [drainF, if_neg hb, eq_self_iff_true, if_true]
        cases hfs : findSub closeTti buf with
        | some i =>
          simp only []
          exact ih g (buf.drop (i + 6)) false
            (by simp only [List.length_drop]; omega)
            (by simp only [List.length_drop]; omega)
        | none => rfl
      | false =>
        simp only [drainF, if_neg hb, Bool.false_eq_true, if_false]
        cases hfi : buf.findIdx? (fun c => c == '[') with
        | none => rfl
        | some p =>
          simp only []
          have hl5 : ((buf.drop p).drop 5).length ≤ buf.length - 5 := by
            simp only [List.length_drop]; omega
          have hl6 : ((buf.drop p).drop 6).length ≤ buf.length - 6 := by
            simp only [List.length_drop]; omega
          have hl1 : ((buf.drop p).drop 1).length ≤ buf.length - 1 := by
            simp only [List.length_drop]; omega
          by_cases hc1 : openTti.isPrefixOf (buf.drop p) = true
          · rw [if_pos hc1, if_pos hc1, ih g _ true (by omega) (by omega)]
          · rw [if_neg hc1, if_neg hc1]
            by_cases hc2 : openTts.isPrefixOf (buf.drop p) = true
            · rw [if_pos hc2, if_pos hc2, ih g _ false (by omega) (by omega)]
            · rw [if_neg hc2, if_neg hc2]
              by_cases hc3 : closeTts.isPrefixOf (buf.drop p) = true
              · rw [if_pos hc3, if_pos hc3, ih g _ false (by omega) (by omega)]
              · rw [if_neg hc3, if_neg hc3]
                by_cases hc4 : closeTti.isPrefixOf (buf.drop p) = true
                · rw [if_pos hc4, if_pos hc4, ih g _ false (by omega) (by omega)]
                · rw [if_neg hc4, if_neg hc4]
                  by_cases hc5 : knownTags.any (fun tag => (buf.drop p).isPrefixOf tag) = true
                  · rw [if_pos hc5, if_pos hc5]
                  · rw [if_neg hc5, if_neg hc5, ih g _ false (by omega) (by omega)]

theorem drainF_eq_drain (fuel : Nat) (buf : List Char) (t : Bool)
    (h : buf.length < fuel) : drainF fuel buf t = drain buf t :=
  drainF_congr fuel (buf.length + 1) buf t h (by omega)

/-! ### isPrefixOf and findSub support lemmas -/

theorem isPrefixOf_iff_append : ∀ {l1 l2 : List Char},
    l1.isPrefixOf l2 = true ↔ ∃ t, l1 ++ t = l2 := by
  intro l1
  induction l1 with
  | nil =>
    intro l2
    simp [List.isPrefixOf]
  | cons a as ih =>
    intro l2
    cases l2 with
    | nil => simp [List.isPrefixOf]
    | cons b bs =>
      simp only [List.isPrefixOf, Bool.and_eq_true, beq_iff_eq, ih,
        List.cons_append, List.cons.injEq]
      constructor
      · rintro ⟨hab, t, ht⟩
        exact ⟨t, hab, ht⟩
      · rintro ⟨t, hab, ht⟩
        exact ⟨hab, t, ht⟩

theorem isPrefixOf_length_le {l1 l2 : List Char}
    (h : l1.isPrefixOf l2 = true) : l1.length ≤ l2.length := by
  rw [isPrefixOf_iff_append] at h
  obtain ⟨t, ht⟩ := h
  rw [← ht]
  simp

theorem isPrefixOf_append_right (l1 l2 y : List Char)
    (h : l1.isPrefixOf l2 = true) : l1.isPrefixOf (l2 ++ y) = true := by
  rw [isPrefixOf_iff_append] at h ⊢
  obtain ⟨t, ht⟩ := h
  exact ⟨t ++ y, by rw [← List.append_assoc, ht]⟩

theorem isPrefixOf_of_append_left (l1 l2 y : List Char)
    (h : l1.isPrefixOf (l2 ++ y) = true) (hl : l1.length ≤ l2.length) :
    l1.isPrefixOf l2 = true := by
  rw [isPrefixOf_iff_append] at h ⊢
  obtain ⟨t, ht⟩ := h
  refine ⟨l2.drop l1.length, ?_⟩
  have h1 : (l1 ++ t).take l1.length = (l2 ++ y).take l1.length := by rw [ht]
  rw [List.take_left, List.take_append_eq_append_take,
      Nat.sub_eq_zero_of_le hl, List.take_zero, List.append_nil] at h1
  nth_rewrite 1 [h1]
  exact List.take_append_drop l1.length l2

theorem findSub_eq_none_iff (needle : List Char) (hn : needle ≠ []) :
    ∀ (hay : List Char),
      findSub needle hay = none ↔ ∀ j, ¬ needle.isPrefixOf (hay.drop j) = true := by
  have hne : needle.isEmpty = false := by
    cases needle
    · exact absurd rfl hn
    · rfl
  intro hay
  induction hay with
  | nil =>
    simp only [findSub, hne, Bool.false_eq_true, if_false, List.drop_nil]
    simp only [true_iff]
    intro j h
    rw [isPrefixOf_iff_append] at h
    obtain ⟨t, ht⟩ := h
    cases needle
    · exact hn rfl
    · simp at ht
  | cons c rest ih =>
    simp only [findSub]
    by_cases hpre : needle.isPrefixOf (c :: rest) = true
    · rw [if_pos hpre]
      constructor
      · intro h
        simp at h
      · intro h
        exact absurd hpre (h 0)
    · rw [if_neg hpre]
      constructor
      · intro h j
        have hrest : findSub needle rest = none := by
          cases hfs : findSub needle rest
          · rfl
          · rw [hfs] at h
            simp at h
        cases j with
        | zero => exact hpre
        | succ j => exact (ih.mp hrest) j
      · intro h
        have hrest : findSub needle rest = none :=
          ih.mpr (fun j => h (j + 1))
        rw [hrest]
        rfl

theorem findSub_eq_some_iff (needle : List Char) (hn : needle ≠ []) :
    ∀ (hay : List Char) (i : Nat),
      findSub needle hay = some i ↔
        needle.isPrefixOf (hay.drop i) = true ∧
        ∀ j < i, ¬ needle.isPrefixOf (hay.drop j) = true := by
  have hne : needle.isEmpty = false := by
    cases needle
    · exact absurd rfl hn
    · rfl
  intro hay
  induction hay with
  | nil =>
    intro i
    simp only [findSub, hne, Bool.false_eq_true, if_false, List.drop_nil]
    constructor
    · intro h
      simp at h
    · rintro ⟨h1, -⟩
      exfalso
      rw [isPrefixOf_iff_append] at h1
      obtain ⟨t, ht⟩ := h1
      cases needle
      · exact absurd rfl hn
      · simp at ht
  | cons c rest ih =>
    intro i
    simp only [findSub]
    by_cases hpre : needle.isPrefixOf (c :: rest) = true
    · rw [if_pos hpre]
      constructor
      · intro h
        have hi : i = 0 := by
          cases h
          rfl
        subst hi
        exact ⟨hpre, by omega⟩
      · rintro ⟨h1, h2⟩
        cases i with
        | zero => rfl
        | succ i => exact absurd hpre (h2 0 (by omega))
    · rw [if_neg hpre]
      constructor
      · intro h
        cases hfs : findSub needle rest with
        | none => rw [hfs] at h; simp at h
        | some i' =>
          rw [hfs] at h
          simp only [Option.map_some', Option.some.injEq] at h
          subst h
          obtain ⟨g1, g2⟩ := (ih i').mp hfs
          refine ⟨g1, ?_⟩
          intro j hj
          cases j with
          | zero => exact hpre
          | succ j => exact g2 j (by omega)
      · rintro ⟨h1, h2⟩
        cases i with
        | zero => exact absurd h1 hpre
        | succ i =>
          have : findSub needle rest = some i :=
            (ih i).mpr ⟨h1, fun j hj => h2 (j + 1) (by omega)⟩
          rw [this]
          rfl

theorem findSub_some_bound {needle hay : List Char} {i : Nat} (hn : needle ≠ [])
    (h : findSub needle hay = some i) : i + needle.length ≤ hay.length := by
  obtain ⟨h1, _⟩ := (findSub_eq_some_iff needle hn hay i).mp h
  have hle := isPrefixOf_length_le h1
  rw [List.length_drop] at hle
  have hpos : 0 < needle.length := by
    cases needle
    · exact absurd rfl hn
    · simp
  omega


/-! ### drain step lemmas (one per branch of the while loop) -/

theorem drain_nil (t : Bool) : drain [] t = ([], [], t) := rfl

theorem closeTti_ne_nil : closeTti ≠ [] := by simp [closeTti]

theorem drain_tti_found (buf : List Char) (i : Nat)
    (hfs : findSub closeTti buf = some i) :
    drain buf true = drain (buf.drop (i + 6)) false := by
  have hb : buf.isEmpty = false := by
    cases buf
    · simp [findSub, closeTti] at hfs
    · rfl
  have hlen : 0 < buf.length := by
    cases buf
    · simp at hb
    · simp
  show drainF (buf.length + 1) buf true = _
  simp only [drainF, hb, Bool.false_eq_true, if_false, eq_self_iff_true, if_true, hfs]
  exact drainF_eq_drain _ _ _ (by simp only [List.length_drop]; omega)

theorem drain_tti_stuck (buf : List Char) (hb : buf ≠ [])
    (hfs : findSub closeTti buf = none) :
    drain buf true
      = ([], if 5 < buf.length then buf.drop (buf.length - 5) else buf, true) := by
  have hb' : buf.isEmpty = false := by
    cases buf
    · exact absurd rfl hb
    · rfl
  show drainF (buf.length + 1) buf true = _
  simp only [drainF, hb', Bool.false_eq_true, if_false, eq_self_iff_true, if_true, hfs]

theorem drain_no_bracket (buf : List Char) (hb : buf ≠ [])
    (hfi : buf.findIdx? (fun c => c == '[') = none) :
    drain buf false = (buf, [], false) := by
  have hb' : buf.isEmpty = false := by
    cases buf
    · exact absurd rfl hb
    · rfl
  show drainF (buf.length + 1) buf false = _
  simp only [drainF, hb', Bool.false_eq_true, if_false, hfi]

theorem drain_open_tti (buf : List Char) (p : Nat)
    (hfi : buf.findIdx? (fun c => c == '[') = some p)
    (hc1 : openTti.isPrefixOf (buf.drop p) = true) :
    drain buf false
      = (buf.take p ++ (drain ((buf.drop p).drop 5) true).1,
         (drain ((buf.drop p).drop 5) true).2) := by
  have hb' : buf.isEmpty = false := by
    cases buf
    · simp at hfi
    · rfl
  have hlen : 0 < buf.length := by
    cases buf
    · simp at hb'
    · simp
  show drainF (buf.length + 1) buf false = _
  simp only [drainF, hb', Bool.false_eq_true, if_false, hfi, if_pos hc1]
  rw [drainF_eq_drain _ _ _ (by simp only [List.length_drop]; omega)]

theorem drain_open_tts (buf : List Char) (p : Nat)
    (hfi : buf.findIdx? (fun c => c == '[') = some p)
    (hc1 : ¬ openTti.isPrefixOf (buf.drop p) = true)
    (hc2 : openTts.isPrefixOf (buf.drop p) = true) :
    drain buf false
      = (buf.take p ++ (drain ((buf.drop p).drop 5) false).1,
         (drain ((buf.drop p).drop 5) false).2) := by
  have hb' : buf.isEmpty = false := by
    cases buf
    · simp at hfi
    · rfl
  have hlen : 0 < buf.length := by
    cases buf
    · simp at hb'
    · simp
  show drainF (buf.length + 1) buf false = _
  simp only [drainF, hb', Bool.false_eq_true, if_false, hfi, if_neg hc1, if_pos hc2]
  rw [drainF_eq_drain _ _ _ (by simp only [List.length_drop]; omega)]

theorem drain_close_tts (buf : List Char) (p : Nat)
    (hfi : buf.findIdx? (fun c => c == '[') = some p)
    (hc1 : ¬ openTti.isPrefixOf (buf.drop p) = true)
    (hc2 : ¬ openTts.isPrefixOf (buf.drop p) = true)
    (hc3 : closeTts.isPrefixOf (buf.drop p) = true) :
    drain buf false
      = (buf.take p ++ (drain ((buf.drop p).drop 6) false).1,
         (drain ((buf.drop p).drop 6) false).2) := by
  have hb' : buf.isEmpty = false := by
    cases buf
    · simp at hfi
    · rfl
  have hlen : 0 < buf.length := by
    cases buf
    · simp at hb'
    · simp
  show drainF (buf.length + 1) buf false = _
  simp only [drainF, hb', Bool.false_eq_true, if_false, hfi, if_neg hc1, if_neg hc2,
    if_pos hc3]
  rw [drainF_eq_drain _ _ _ (by simp only [List.length_drop]; omega)]

theorem drain_close_tti (buf : List Char) (p : Nat)
    (hfi : buf.findIdx? (fun c => c == '[') = some p)
    (hc1 : ¬ openTti.isPrefixOf (buf.drop p) = true)
    (hc2 : ¬ openTts.isPrefixOf (buf.drop p) = true)
    (hc3 : ¬ closeTts.isPrefixOf (buf.drop p) = true)
    (hc4 : closeTti.isPrefixOf (buf.drop p) = true) :
    drain buf false
      = (buf.take p ++ (drain ((buf.drop p).drop 6) false).1,
         (drain ((buf.drop p).drop 6) false).2) := by
  have hb' : buf.isEmpty = false := by
    cases buf
    · simp at hfi
    · rfl
  have hlen : 0 < buf.length := by
    cases buf
    · simp at hb'
    · simp
  show drainF (buf.length + 1) buf false = _
  simp only [drainF, hb', Bool.false_eq_true, if_false, hfi, if_neg hc1, if_neg hc2,
    if_neg hc3, if_pos hc4]
  rw [drainF_eq_drain _ _ _ (by simp only [List.length_drop]; omega)]

theorem drain_tag_head_stuck (buf : List Char) (p : Nat)
    (hfi : buf.findIdx? (fun c => c == '[') = some p)
    (hc1 : ¬ openTti.isPrefixOf (buf.drop p) = true)
    (hc2 : ¬ openTts.isPrefixOf (buf.drop p) = true)
    (hc3 : ¬ closeTts.isPrefixOf (buf.drop p) = true)
    (hc4 : ¬ closeTti.isPrefixOf (buf.drop p) = true)
    (hc5 : knownTags.any (fun tag => (buf.drop p).isPrefixOf tag) = true) :
    drain buf false = (buf.take p, buf.drop p, false) := by
  have hb' : buf.isEmpty = false := by
    cases buf
    · simp at hfi
    · rfl
  show drainF (buf.length + 1) buf false = _
  simp only [drainF, hb', Bool.false_eq_true, if_false, hfi, if_neg hc1, if_neg hc2,
    if_neg hc3, if_neg hc4, if_pos hc5]

theorem drain_literal_bracket (buf : List Char) (p : Nat)
    (hfi : buf.findIdx? (fun c => c == '[') = some p)
    (hc1 : ¬ openTti.isPrefixOf (buf.drop p) = true)
    (hc2 : ¬ openTts.isPrefixOf (buf.drop p) = true)
    (hc3 : ¬ closeTts.isPrefixOf (buf.drop p) = true)
    (hc4 : ¬ closeTti.isPrefixOf (buf.drop p) = true)
    (hc5 : ¬ knownTags.any (fun tag => (buf.drop p).isPrefixOf tag) = true) :
    drain buf false
      = (buf.take p ++ '[' :: (drain ((buf.drop p).drop 1) false).1,
         (drain ((buf.drop p).drop 1) false).2) := by
  have hb' : buf.isEmpty = false := by
    cases buf
    · simp at hfi
    · rfl
  have hlen : 0 < buf.length := by
    cases buf
    · simp at hb'
    · simp
  show drainF (buf.length + 1) buf false = _
  simp only [drainF, hb', Bool.false_eq_true, if_false, hfi, if_neg hc1, if_neg hc2,
    if_neg hc3, if_neg hc4, if_neg hc5]
  rw [drainF_eq_drain _ _ _ (by simp only [List.length_drop]; omega)]


/-- Splitting the emission of text before the bracket: drain restarts
identically at the bracket position. -/
theorem drain_bracket_shift (buf : List Char) (p : Nat)
    (hfi : buf.findIdx? (fun c => c == '[') = some p) :
    drain buf false
      = (buf.take p ++ (drain (buf.drop p) false).1, (drain (buf.drop p) false).2) := by
  have hfi0 : (buf.drop p).findIdx? (fun c => c == '[') = some 0 := by
    obtain ⟨hp, hsat, -⟩ := List.findIdx?_eq_some_iff_getElem.mp hfi
    rw [← List.getElem_cons_drop buf p hp, List.findIdx?_cons, if_pos hsat]
  have hz : (buf.drop p).drop 0 = buf.drop p := List.drop_zero _
  by_cases hc1 : openTti.isPrefixOf (buf.drop p) = true
  · rw [drain_open_tti buf p hfi hc1,
        drain_open_tti (buf.drop p) 0 hfi0 (by rw [hz]; exact hc1)]
    simp [hz]
  · by_cases hc2 : openTts.isPrefixOf (buf.drop p) = true
    · rw [drain_open_tts buf p hfi hc1 hc2,
          drain_open_tts (buf.drop p) 0 hfi0 (by rw [hz]; exact hc1)
            (by rw [hz]; exact hc2)]
      simp [hz]
    · by_cases hc3 : closeTts.isPrefixOf (buf.drop p) = true
      · rw [drain_close_tts buf p hfi hc1 hc2 hc3,
            drain_close_tts (buf.drop p) 0 hfi0 (by rw [hz]; exact hc1)
              (by rw [hz]; exact hc2) (by rw [hz]; exact hc3)]
        simp [hz]
      · by_cases hc4 : closeTti.isPrefixOf (buf.drop p) = true
        · rw [drain_close_tti buf p hfi hc1 hc2 hc3 hc4,
              drain_close_tti (buf.drop p) 0 hfi0 (by rw [hz]; exact hc1)
                (by rw [hz]; exact hc2) (by rw [hz]; exact hc3) (by rw [hz]; exact hc4)]
          simp [hz]
        · by_cases hc5 : knownTags.any (fun tag => (buf.drop p).isPrefixOf tag) = true
          · rw [drain_tag_head_stuck buf p hfi hc1 hc2 hc3 hc4 hc5,
                drain_tag_head_stuck (buf.drop p) 0 hfi0 (by rw [hz]; exact hc1)
                  (by rw [hz]; exact hc2) (by rw [hz]; exact hc3) (by rw [hz]; exact hc4)
                  (by rw [hz]; exact hc5)]
            simp [hz]
          · rw [drain_literal_bracket buf p hfi hc1 hc2 hc3 hc4 hc5,
                drain_literal_bracket (buf.drop p) 0 hfi0 (by rw [hz]; exact hc1)
                  (by rw [hz]; exact hc2) (by rw [hz]; exact hc3) (by rw [hz]; exact hc4)
                  (by rw [hz]; exact hc5)]
            simp [hz]


/-! ### Prefix helpers and the tti trim lemma -/

theorem isPrefixOf_trans {l1 l2 l3 : List Char} (h1 : l1.isPrefixOf l2 = true)
    (h2 : l2.isPrefixOf l3 = true) : l1.isPrefixOf l3 = true := by
  rw [isPrefixOf_iff_append] at h1 h2 ⊢
  obtain ⟨t1, ht1⟩ := h1
  obtain ⟨t2, ht2⟩ := h2
  exact ⟨t1 ++ t2, by rw [← List.append_assoc, ht1, ht2]⟩

theorem isPrefixOf_self_append (l y : List Char) : l.isPrefixOf (l ++ y) = true :=
  isPrefixOf_iff_append.mpr ⟨y, rfl⟩

theorem isPrefixOf_of_isPrefixOf_le {l1 l2 s : List Char}
    (h1 : l1.isPrefixOf s = true) (h2 : l2.isPrefixOf s = true)
    (hl : l1.length ≤ l2.length) : l1.isPrefixOf l2 = true := by
  rw [isPrefixOf_iff_append] at h2
  obtain ⟨t, ht⟩ := h2
  rw [← ht] at h1
  exact isPrefixOf_of_append_left l1 l2 t h1 hl

theorem trim_append_eq (buf y : List Char) (h5 : 5 < buf.length) :
    (buf ++ y).drop ((buf ++ y).length - 5)
      = (buf.drop (buf.length - 5) ++ y).drop
          ((buf.drop (buf.length - 5) ++ y).length - 5) := by
  have hlen : (buf ++ y).length - 5 = (buf.length - 5) + y.length := by
    simp only [List.length_append]
    omega
  have hlen2 : (buf.drop (buf.length - 5) ++ y).length - 5 = y.length := by
    simp only [List.length_append, List.length_drop]
    omega
  rw [hlen, hlen2, ← List.drop_drop, List.drop_append_of_le_length (by omega)]

/-- In suppression mode, trimming the buffer to its last five characters
before appending more input does not change the result: a closing tag can
overlap the boundary by at most five characters, and `[/tti]` contains
`[` only at its head, so no occurrence is lost or created. -/
theorem drain_tti_trim_append (buf y : List Char)
    (hfs : findSub closeTti buf = none) (h5 : 5 < buf.length) :
    drain (buf ++ y) true = drain (buf.drop (buf.length - 5) ++ y) true := by
  have hb'len : (buf.drop (buf.length - 5)).length = 5 := by
    simp only [List.length_drop]
    omega
  have hnone_low : ∀ j, j < buf.length - 5 →
      ¬ closeTti.isPrefixOf ((buf ++ y).drop j) = true := by
    intro j hj hpref
    rw [List.drop_append_of_le_length (by omega)] at hpref
    have h6 : closeTti.length ≤ (buf.drop j).length := by
      simp only [List.length_drop, closeTti]
      simp
      omega
    have := isPrefixOf_of_append_left _ _ _ hpref h6
    exact ((findSub_eq_none_iff closeTti closeTti_ne_nil buf).mp hfs j) this
  have e1 : List.drop (buf.length - 5) (buf ++ y) = buf.drop (buf.length - 5) ++ y :=
    List.drop_append_of_le_length (by omega)
  have hcorr : ∀ j, (buf.drop (buf.length - 5) ++ y).drop j
      = (buf ++ y).drop ((buf.length - 5) + j) := by
    intro j
    rw [← e1, List.drop_drop]
  cases hfs2 : findSub closeTti (buf.drop (buf.length - 5) ++ y) with
  | some j =>
    have hfull : findSub closeTti (buf ++ y) = some ((buf.length - 5) + j) := by
      rw [findSub_eq_some_iff closeTti closeTti_ne_nil]
      obtain ⟨g1, g2⟩ := (findSub_eq_some_iff closeTti closeTti_ne_nil _ _).mp hfs2
      refine ⟨hcorr j ▸ g1, ?_⟩
      intro k hk
      by_cases hklow : k < buf.length - 5
      · exact hnone_low k hklow
      · intro hpref
        have hk' : k = (buf.length - 5) + (k - (buf.length - 5)) := by omega
        rw [hk', ← hcorr _] at hpref
        exact (g2 _ (by omega)) hpref
    rw [drain_tti_found _ _ hfull, drain_tti_found _ _ hfs2]
    have harith : buf.length - 5 + j + 6 = (buf.length - 5) + (j + 6) := by omega
    rw [harith, ← hcorr (j + 6)]
  | none =>
    have hfull : findSub closeTti (buf ++ y) = none := by
      rw [findSub_eq_none_iff closeTti closeTti_ne_nil]
      intro j
      by_cases hjlow : j < buf.length - 5
      · exact hnone_low j hjlow
      · intro hpref
        have hj' : j = (buf.length - 5) + (j - (buf.length - 5)) := by omega
        rw [hj', ← hcorr _] at hpref
        exact ((findSub_eq_none_iff closeTti closeTti_ne_nil _).mp hfs2 _) hpref
    have hne1 : buf ++ y ≠ [] := by
      intro hc
      have := congrArg List.length hc
      simp only [List.length_append, List.length_nil] at this
      omega
    have hne2 : buf.drop (buf.length - 5) ++ y ≠ [] := by
      intro hc
      have := congrArg List.length hc
      simp only [List.length_append, List.length_nil, hb'len] at this
      omega
    rw [drain_tti_stuck _ hne1 hfull, drain_tti_stuck _ hne2 hfs2]
    by_cases hy : 0 < y.length
    · rw [if_pos (by simp only [List.length_append]; omega),
          if_pos (by simp only [List.length_append, hb'len]; omega),
          trim_append_eq buf y h5]
    · have hynil : y = [] := List.length_eq_zero.mp (by omega)
      subst hynil
      rw [List.append_nil, List.append_nil,
          if_pos (by omega), if_neg (by omega)]


theorem tag_not_prefixOf_append {T buf y : List Char}
    (hT : ¬ T.isPrefixOf buf = true) (hlen : T.length ≤ buf.length) :
    ¬ T.isPrefixOf (buf ++ y) = true :=
  fun h => hT (isPrefixOf_of_append_left _ _ _ h hlen)

theorem tag_not_prefixOf_append2 {T buf y : List Char}
    (hT : ¬ T.isPrefixOf buf = true) (hB : ¬ buf.isPrefixOf T = true) :
    ¬ T.isPrefixOf (buf ++ y) = true := by
  intro h
  by_cases hl : T.length ≤ buf.length
  · exact hT (isPrefixOf_of_append_left _ _ _ h hl)
  · exact hB (isPrefixOf_of_isPrefixOf_le (isPrefixOf_self_append buf y) h (by omega))

/-- Online/offline equivalence of `_drain`: draining `buf ++ y` emits what
draining `buf` emits, then what draining the retained buffer plus `y`
emits, ending in the same state.  This makes token-split boundaries
irrelevant. -/
theorem drain_comp : ∀ (n : Nat) (buf : List Char), buf.length ≤ n →
    ∀ (t : Bool) (y : List Char),
    drain (buf ++ y) t
      = ((drain buf t).1 ++ (drain ((drain buf t).2.1 ++ y) (drain buf t).2.2).1,
         (drain ((drain buf t).2.1 ++ y) (drain buf t).2.2).2) := by
  intro n
  induction n with
  | zero =>
    intro buf hb t y
    have hbe : buf = [] := List.length_eq_zero.mp (by omega)
    subst hbe
    simp [drain_nil]
  | succ n ih =>
    intro buf hb t y
    by_cases hbe : buf = []
    · subst hbe
      simp [drain_nil]
    · have hlen : 0 < buf.length := List.length_pos.mpr hbe
      cases t with
      | true =>
        cases hfs : findSub closeTti buf with
        | some i =>
          have hbound := findSub_some_bound closeTti_ne_nil hfs
          have hlen6 : closeTti.length = 6 := rfl
          rw [hlen6] at hbound
          have hfull : findSub closeTti (buf ++ y) = some i := by
            rw [findSub_eq_some_iff closeTti closeTti_ne_nil]
            obtain ⟨g1, g2⟩ := (findSub_eq_some_iff closeTti closeTti_ne_nil buf i).mp hfs
            constructor
            · rw [List.drop_append_of_le_length (by omega)]
              exact isPrefixOf_append_right _ _ _ g1
            · intro j hj hpref
              rw [List.drop_append_of_le_length (by omega)] at hpref
              refine g2 j hj (isPrefixOf_of_append_left _ _ _ hpref ?_)
              rw [hlen6]
              simp only [List.length_drop]
              omega
          rw [drain_tti_found _ _ hfull, drain_tti_found _ _ hfs,
              List.drop_append_of_le_length (by omega)]
          exact ih (buf.drop (i + 6)) (by simp only [List.length_drop]; omega) false y
        | none =>
          by_cases h5 : 5 < buf.length
          · rw [drain_tti_trim_append buf y hfs h5, drain_tti_stuck buf hbe hfs,
                if_pos h5]
            simp
          · rw [drain_tti_stuck buf hbe hfs, if_neg h5]
            simp
      | false =>
        cases hfi : buf.findIdx? (fun c => c == '[') with
        | none =>
          rw [drain_no_bracket buf hbe hfi]
          simp only [List.nil_append]
          cases hfy : y.findIdx? (fun c => c == '[') with
          | none =>
            by_cases hye : y = []
            · subst hye
              rw [List.append_nil, drain_no_bracket buf hbe hfi, drain_nil]
              simp
            · have hfull : (buf ++ y).findIdx? (fun c => c == '[') = none := by
                rw [List.findIdx?_append, hfi, hfy]
                rfl
              rw [drain_no_bracket (buf ++ y) (by simp [hbe]) hfull,
                  drain_no_bracket y hye hfy]
          | some q =>
            have hfull : (buf ++ y).findIdx? (fun c => c == '[')
                = some (q + buf.length) := by
              rw [List.findIdx?_append, hfi, hfy]
              rfl
            rw [drain_bracket_shift (buf ++ y) (q + buf.length) hfull,
                drain_bracket_shift y q hfy,
                show q + buf.length = buf.length + q from by omega,
                List.take_append, List.drop_append]
            simp [List.append_assoc]
        | some p =>
          have hfull : (buf ++ y).findIdx? (fun c => c == '[') = some p := by
            rw [List.findIdx?_append, hfi, Option.or_some]
          have hp : p < buf.length := by
            obtain ⟨hlt, -, -⟩ := List.findIdx?_eq_some_iff_getElem.mp hfi
            exact hlt
          by_cases hp0 : p = 0
          · subst hp0
            have hz : buf.drop 0 = buf := List.drop_zero buf
            have hzz : (buf ++ y).drop 0 = buf ++ y := List.drop_zero _
            by_cases hc1 : openTti.isPrefixOf buf = true
            · have hl5 : 5 ≤ buf.length := isPrefixOf_length_le hc1
              have hc1' : openTti.isPrefixOf (buf ++ y) = true :=
                isPrefixOf_append_right _ _ _ hc1
              rw [drain_open_tti (buf ++ y) 0 hfull (by rw [hzz]; exact hc1'),
                  drain_open_tti buf 0 hfi (by rw [hz]; exact hc1)]
              rw [hz, hzz, List.take_zero,
                  List.drop_append_of_le_length (by omega)]
              have := ih (buf.drop 5) (by simp only [List.length_drop]; omega) true y
              rw [this]
              simp
            · by_cases hc2 : openTts.isPrefixOf buf = true
              · have hl5 : 5 ≤ buf.length := isPrefixOf_length_le hc2
                have hc2' : openTts.isPrefixOf (buf ++ y) = true :=
                  isPrefixOf_append_right _ _ _ hc2
                have hc1' := tag_not_prefixOf_append (T := openTti) (y := y) hc1
                  (by simp [openTti]; omega)
                rw [drain_open_tts (buf ++ y) 0 hfull (by rw [hzz]; exact hc1')
                      (by rw [hzz]; exact hc2'),
                    drain_open_tts buf 0 hfi (by rw [hz]; exact hc1)
                      (by rw [hz]; exact hc2)]
                rw [hz, hzz, List.take_zero,
                    List.drop_append_of_le_length (by omega)]
                have := ih (buf.drop 5) (by simp only [List.length_drop]; omega) false y
                rw [this]
                simp
              · by_cases hc3 : closeTts.isPrefixOf buf = true
                · have hl6 : 6 ≤ buf.length := isPrefixOf_length_le hc3
                  have hc3' : closeTts.isPrefixOf (buf ++ y) = true :=
                    isPrefixOf_append_right _ _ _ hc3
                  have hc1' := tag_not_prefixOf_append (T := openTti) (y := y) hc1
                    (by simp [openTti]; omega)
                  have hc2' := tag_not_prefixOf_append (T := openTts) (y := y) hc2
                    (by simp [openTts]; omega)
                  rw [drain_close_tts (buf ++ y) 0 hfull (by rw [hzz]; exact hc1')
                        (by rw [hzz]; exact hc2') (by rw [hzz]; exact hc3'),
                      drain_close_tts buf 0 hfi (by rw [hz]; exact hc1)
                        (by rw [hz]; exact hc2) (by rw [hz]; exact hc3)]
                  rw [hz, hzz, List.take_zero,
                      List.drop_append_of_le_length (by omega)]
                  have := ih (buf.drop 6) (by simp only [List.length_drop]; omega) false y
                  rw [this]
                  simp
                · by_cases hc4 : closeTti.isPrefixOf buf = true
                  · have hl6 : 6 ≤ buf.length := isPrefixOf_length_le hc4
                    have hc4' : closeTti.isPrefixOf (buf ++ y) = true :=
                      isPrefixOf_append_right _ _ _ hc4
                    have hc1' := tag_not_prefixOf_append (T := openTti) (y := y) hc1
                      (by simp [openTti]; omega)
                    have hc2' := tag_not_prefixOf_append (T := openTts) (y := y) hc2
                      (by simp [openTts]; omega)
                    have hc3' := tag_not_prefixOf_append (T := closeTts) (y := y) hc3
                      (by simp [closeTts]; omega)
                    rw [drain_close_tti (buf ++ y) 0 hfull (by rw [hzz]; exact hc1')
                          (by rw [hzz]; exact hc2') (by rw [hzz]; exact hc3')
                          (by rw [hzz]; exact hc4'),
                        drain_close_tti buf 0 hfi (by rw [hz]; exact hc1)
                          (by rw [hz]; exact hc2) (by rw [hz]; exact hc3)
                          (by rw [hz]; exact hc4)]
                    rw [hz, hzz, List.take_zero,
                        List.drop_append_of_le_length (by omega)]
                    have := ih (buf.drop 6) (by simp only [List.length_drop]; omega) false y
                    rw [this]
                    simp
                  · by_cases hc5 : knownTags.any (fun tag => buf.isPrefixOf tag) = true
                    · rw [drain_tag_head_stuck buf 0 hfi (by rw [hz]; exact hc1)
                            (by rw [hz]; exact hc2) (by rw [hz]; exact hc3)
                            (by rw [hz]; exact hc4) (by rw [hz]; exact hc5)]
                      rw [hz, List.take_zero]
                      simp
                    · have hktags : ∀ T ∈ knownTags, ¬ buf.isPrefixOf T = true := by
                        intro T hT hpb
                        apply hc5
                        rw [List.any_eq_true]
                        exact ⟨T, hT, hpb⟩
                      have hc1' := tag_not_prefixOf_append2 (y := y) hc1
                        (hktags openTti (by simp [knownTags]))
                      have hc2' := tag_not_prefixOf_append2 (y := y) hc2
                        (hktags openTts (by simp [knownTags]))
                      have hc3' := tag_not_prefixOf_append2 (y := y) hc3
                        (hktags closeTts (by simp [knownTags]))
                      have hc4' := tag_not_prefixOf_append2 (y := y) hc4
                        (hktags closeTti (by simp [knownTags]))
                      have hc5' : ¬ knownTags.any
                          (fun tag => (buf ++ y).isPrefixOf tag) = true := by
                        intro hc
                        rw [List.any_eq_true] at hc
                        obtain ⟨T, hT, hpT⟩ := hc
                        exact hktags T hT
                          (isPrefixOf_trans (isPrefixOf_self_append buf y) hpT)
                      rw [drain_literal_bracket (buf ++ y) 0 hfull
                            (by rw [hzz]; exact hc1') (by rw [hzz]; exact hc2')
                            (by rw [hzz]; exact hc3') (by rw [hzz]; exact hc4')
                            (by rw [hzz]; exact hc5'),
                          drain_literal_bracket buf 0 hfi (by rw [hz]; exact hc1)
                            (by rw [hz]; exact hc2) (by rw [hz]; exact hc3)
                            (by rw [hz]; exact hc4) (by rw [hz]; exact hc5)]
                      rw [hz, hzz, List.take_zero,
                          List.drop_append_of_le_length (by omega)]
                      have := ih (buf.drop 1)
                        (by simp only [List.length_drop]; omega) false y
                      rw [this]
                      simp
          · rw [drain_bracket_shift (buf ++ y) p hfull, drain_bracket_shift buf p hfi,
                List.take_append_of_le_length (by omega),
                List.drop_append_of_le_length (by omega)]
            have := ih (buf.drop p) (by simp only [List.length_drop]; omega) false y
            rw [this]
            simp [List.append_assoc]


/-! ### Stripper state and feeding -/

structure StripState where
  buf : List Char
  inTti : Bool
deriving DecidableEq

/-- `_TagStripper.__init__` (voice.py 51-53). -/
def initStrip : StripState := ⟨[], false⟩

/-- `_TagStripper.feed` (voice.py 55-57). -/
def feedTok (st : StripState) (tok : List Char) : List Char × StripState :=
  ((drain (st.buf ++ tok) st.inTti).1,
   ⟨(drain (st.buf ++ tok) st.inTti).2.1, (drain (st.buf ++ tok) st.inTti).2.2⟩)

/-- `_TagStripper.flush` (voice.py 59-63): returns the buffered tail unless
inside a suppressed block; clears the buffer, leaves `_in_tti` unchanged. -/
def flushStrip (st : StripState) : List Char × StripState :=
  (if st.inTti then [] else st.buf, ⟨[], st.inTti⟩)

/-- Feed a sequence of tokens, concatenating all emitted text. -/
def feedAll (st : StripState) : List (List Char) → List Char × StripState
  | [] => ([], st)
  | tok :: rest =>
    ((feedTok st tok).1 ++ (feedAll (feedTok st tok).2 rest).1,
     (feedAll (feedTok st tok).2 rest).2)

/-- Emitted text of a drain plus the flush of its final state. -/
def totalOut (buf : List Char) (t : Bool) : List Char :=
  (drain buf t).1 ++ (if (drain buf t).2.2 then [] else (drain buf t).2.1)

theorem totalOut_comp (a y : List Char) (t : Bool) :
    totalOut (a ++ y) t
      = (drain a t).1 ++ totalOut ((drain a t).2.1 ++ y) (drain a t).2.2 := by
  unfold totalOut
  rw [drain_comp a.length a (Nat.le_refl _) t y]
  simp [List.append_assoc]

/-- Feeding tokens one at a time equals feeding their concatenation. -/
theorem feedAll_eq_flatten : ∀ (toks : List (List Char)) (st : StripState),
    toks ≠ [] → feedAll st toks = feedTok st toks.flatten := by
  intro toks
  induction toks with
  | nil => intro st h; exact absurd rfl h
  | cons tok rest ih =>
    intro st _
    cases rest with
    | nil => simp [feedAll, feedTok]
    | cons tok2 rest2 =>
      show ((feedTok st tok).1 ++ (feedAll (feedTok st tok).2 (tok2 :: rest2)).1,
            (feedAll (feedTok st tok).2 (tok2 :: rest2)).2)
          = feedTok st ((tok :: tok2 :: rest2).flatten)
      rw [ih (feedTok st tok).2 (by simp)]
      show _ = feedTok st (tok ++ (tok2 :: rest2).flatten)
      unfold feedTok
      rw [show st.buf ++ (tok ++ (tok2 :: rest2).flatten)
            = (st.buf ++ tok) ++ (tok2 :: rest2).flatten from by
            rw [List.append_assoc],
          drain_comp (st.buf ++ tok).length _ (Nat.le_refl _)]

/-! ### Well-formed segment inputs -/

/-- `s` contains an occurrence of a recognised tag. -/
def containsTag (s : List Char) : Bool :=
  knownTags.any (fun tag => (findSub tag s).isSome)

/-- The proper prefixes of the four recognised tags: exactly the buffers
the stripper may retain while waiting for more input in spoken mode. -/
def properTagPres : List (List Char) :=
  [[], ['['], ['[', 't'], ['[', 't', 't'], ['[', 't', 't', 'i'],
   ['[', 't', 't', 's'], ['[', '/'], ['[', '/', 't'], ['[', '/', 't', 't'],
   ['[', '/', 't', 't', 'i'], ['[', '/', 't', 't', 's']]

theorem noTag_of_containsTag_false {s : List Char} (h : containsTag s = false) :
    ∀ T ∈ knownTags, ∀ j, ¬ T.isPrefixOf (s.drop j) = true := by
  intro T hT j
  have hTne : T ≠ [] := by
    rcases List.mem_cons.mp hT with h1 | h1
    · rw [h1]; simp [openTti]
    rcases List.mem_cons.mp h1 with h2 | h2
    · rw [h2]; simp [closeTti]
    rcases List.mem_cons.mp h2 with h3 | h3
    · rw [h3]; simp [openTts]
    rcases List.mem_cons.mp h3 with h4 | h4
    · rw [h4]; simp [closeTts]
    · simp at h4
  have hnone : findSub T s = none := by
    by_cases hs : (findSub T s).isSome = true
    · exfalso
      unfold containsTag at h
      rw [← Bool.not_eq_true, List.any_eq_true] at h
      exact h ⟨T, hT, hs⟩
    · cases hfs : findSub T s
      · rfl
      · rw [hfs] at hs; simp at hs
  exact (findSub_eq_none_iff T hTne s).mp hnone j

theorem containsTag_drop {s : List Char} (k : Nat) (h : containsTag s = false) :
    containsTag (s.drop k) = false := by
  unfold containsTag
  rw [← Bool.not_eq_true, List.any_eq_true]
  rintro ⟨T, hT, hs⟩
  have hTne : T ≠ [] := by
    intro hc
    subst hc
    exact noTag_of_containsTag_false h [] hT 0 (by
      rw [isPrefixOf_iff_append]
      exact ⟨s.drop 0, rfl⟩)
  rw [Option.isSome_iff_exists] at hs
  obtain ⟨i, hi⟩ := hs
  obtain ⟨g1, -⟩ := (findSub_eq_some_iff T hTne _ i).mp hi
  rw [List.drop_drop] at g1
  exact noTag_of_containsTag_false h T hT (k + i) g1

theorem take_openTti_mem : ∀ k, k < 5 → openTti.take k ∈ properTagPres := by decide

theorem take_openTts_mem : ∀ k, k < 5 → openTts.take k ∈ properTagPres := by decide

theorem take_closeTti_mem : ∀ k, k < 6 → closeTti.take k ∈ properTagPres := by decide

theorem take_closeTts_mem : ∀ k, k < 6 → closeTts.take k ∈ properTagPres := by decide

theorem mem_properTagPres_of_proper {l T : List Char} (hT : T ∈ knownTags)
    (hpref : l.isPrefixOf T = true) (hne : l ≠ T) : l ∈ properTagPres := by
  rw [isPrefixOf_iff_append] at hpref
  obtain ⟨t, ht⟩ := hpref
  have hl : l = T.take l.length := by
    have := congrArg (List.take l.length) ht
    rw [List.take_left] at this
    exact this
  have hlt : l.length < T.length := by
    have hle : l.length ≤ T.length := by
      have := congrArg List.length ht
      simp only [List.length_append] at this
      omega
    rcases Nat.lt_or_ge l.length T.length with h1 | h1
    · exact h1
    · exfalso
      apply hne
      rw [hl, show l.length = T.length from by omega, List.take_length]
  rcases List.mem_cons.mp hT with h1 | h1
  · subst h1; rw [hl]; exact take_openTti_mem _ (by rw [show openTti.length = 5 from rfl] at hlt; omega)
  rcases List.mem_cons.mp h1 with h2 | h2
  · subst h2; rw [hl]; exact take_closeTti_mem _ (by rw [show closeTti.length = 6 from rfl] at hlt; omega)
  rcases List.mem_cons.mp h2 with h3 | h3
  · subst h3; rw [hl]; exact take_openTts_mem _ (by rw [show openTts.length = 5 from rfl] at hlt; omega)
  rcases List.mem_cons.mp h3 with h4 | h4
  · subst h4; rw [hl]; exact take_closeTts_mem _ (by rw [show closeTts.length = 6 from rfl] at hlt; omega)
  · simp at h4


theorem isPrefixOf_self (l : List Char) : l.isPrefixOf l = true :=
  isPrefixOf_iff_append.mpr ⟨[], List.append_nil l⟩

/-- Draining tag-free text in spoken mode emits a prefix of it and retains
a proper-tag-prefix tail, losing nothing. -/
theorem drain_plain : ∀ (n : Nat) (s : List Char), s.length ≤ n →
    containsTag s = false →
    (drain s false).2.2 = false ∧
    (drain s false).1 ++ (drain s false).2.1 = s ∧
    (drain s false).2.1 ∈ properTagPres := by
  intro n
  induction n with
  | zero =>
    intro s hs _
    have hse : s = [] := List.length_eq_zero.mp (by omega)
    subst hse
    exact ⟨rfl, rfl, by decide⟩
  | succ n ih =>
    intro s hs h
    by_cases hse : s = []
    · subst hse
      exact ⟨rfl, rfl, by decide⟩
    · have hnt := noTag_of_containsTag_false h
      cases hfi : s.findIdx? (fun c => c == '[') with
      | none =>
        rw [drain_no_bracket s hse hfi]
        refine ⟨rfl, by simp, ?_⟩
        show ([] : List Char) ∈ properTagPres
        decide
      | some p =>
        have hc1 : ¬ openTti.isPrefixOf (s.drop p) = true :=
          hnt openTti (by simp [knownTags]) p
        have hc2 : ¬ openTts.isPrefixOf (s.drop p) = true :=
          hnt openTts (by simp [knownTags]) p
        have hc3 : ¬ closeTts.isPrefixOf (s.drop p) = true :=
          hnt closeTts (by simp [knownTags]) p
        have hc4 : ¬ closeTti.isPrefixOf (s.drop p) = true :=
          hnt closeTti (by simp [knownTags]) p
        obtain ⟨hp, hsat, -⟩ := List.findIdx?_eq_some_iff_getElem.mp hfi
        by_cases hc5 : knownTags.any (fun tag => (s.drop p).isPrefixOf tag) = true
        · rw [drain_tag_head_stuck s p hfi hc1 hc2 hc3 hc4 hc5]
          refine ⟨rfl, List.take_append_drop p s, ?_⟩
          rw [List.any_eq_true] at hc5
          obtain ⟨T, hT, hpT⟩ := hc5
          refine mem_properTagPres_of_proper hT hpT ?_
          intro hceq
          have hceq2 : List.drop p s = T := hceq
          apply hnt T hT p
          rw [hceq2]
          exact isPrefixOf_self T
        · rw [drain_literal_bracket s p hfi hc1 hc2 hc3 hc4 hc5]
          have hdropTagFree : containsTag ((s.drop p).drop 1) = false := by
            rw [List.drop_drop]
            exact containsTag_drop _ h
          obtain ⟨g1, g2, g3⟩ := ih ((s.drop p).drop 1)
            (by simp only [List.length_drop]; omega) hdropTagFree
          refine ⟨g1, ?_, g3⟩
          have hchar : s.drop p = '[' :: (s.drop p).drop 1 := by
            have hsatc : s[p] = '[' := by simpa using hsat
            rw [List.drop_drop, ← List.getElem_cons_drop s p hp, hsatc]
          rw [List.append_assoc, List.cons_append, g2, ← hchar,
              List.take_append_drop]


/-! ### Consuming a tag after a retained prefix -/

theorem drain_pre_openTts (l : List Char) (hl : l ∈ properTagPres)
    (rest : List Char) :
    drain (l ++ (openTts ++ rest)) false
      = (l ++ (drain rest false).1, (drain rest false).2) := by
  have key : drain (l ++ openTts) false = (l, [], false) := by
    fin_cases hl <;> decide
  rw [show l ++ (openTts ++ rest) = (l ++ openTts) ++ rest from
        (List.append_assoc l openTts rest).symm,
      drain_comp (l ++ openTts).length _ (Nat.le_refl _) false rest, key]
  simp

theorem drain_pre_openTti (l : List Char) (hl : l ∈ properTagPres)
    (rest : List Char) :
    drain (l ++ (openTti ++ rest)) false
      = (l ++ (drain rest true).1, (drain rest true).2) := by
  have key : drain (l ++ openTti) false = (l, [], true) := by
    fin_cases hl <;> decide
  rw [show l ++ (openTti ++ rest) = (l ++ openTti) ++ rest from
        (List.append_assoc l openTti rest).symm,
      drain_comp (l ++ openTti).length _ (Nat.le_refl _) false rest, key]
  simp

theorem drain_pre_closeTts (l : List Char) (hl : l ∈ properTagPres)
    (rest : List Char) :
    drain (l ++ (closeTts ++ rest)) false
      = (l ++ (drain rest false).1, (drain rest false).2) := by
  have key : drain (l ++ closeTts) false = (l, [], false) := by
    fin_cases hl <;> decide
  rw [show l ++ (closeTts ++ rest) = (l ++ closeTts) ++ rest from
        (List.append_assoc l closeTts rest).symm,
      drain_comp (l ++ closeTts).length _ (Nat.le_refl _) false rest, key]
  simp

/-- A closing `[/tti]` appended after at most five retained characters is
found exactly at the boundary: `[/tti]` contains `[` only at its head, so
no occurrence can straddle the retained characters. -/
theorem findSub_closeTti_after_pad (lc S : List Char) (h5 : lc.length ≤ 5)
    (hS : closeTti.isPrefixOf S = true) :
    findSub closeTti (lc ++ S) = some lc.length := by
  rw [findSub_eq_some_iff closeTti closeTti_ne_nil]
  constructor
  · rw [List.drop_left]
    exact hS
  · intro j hj hpref
    rw [isPrefixOf_iff_append] at hpref
    obtain ⟨t, ht⟩ := hpref
    have hd : (lc ++ S).drop j = lc.drop j ++ S :=
      List.drop_append_of_le_length (by omega)
    rw [hd] at ht
    have hlend : (lc.drop j).length = lc.length - j := by simp
    have hS0 : S[0]? = some '[' := by
      rw [isPrefixOf_iff_append] at hS
      obtain ⟨u, hu⟩ := hS
      rw [← hu]
      rfl
    have e1 : (lc.drop j ++ S)[lc.length - j]? = some '[' := by
      rw [List.getElem?_append_right (by omega), hlend, Nat.sub_self]
      exact hS0
    have e2 : (lc.drop j ++ S)[lc.length - j]? = closeTti[lc.length - j]? := by
      rw [← ht]
      exact List.getElem?_append_left
        (by rw [show closeTti.length = 6 from rfl]; omega)
    rw [e1] at e2
    have hbad : ∀ d, d < 6 → 1 ≤ d → ¬ (closeTti[d]? = some '[') := by decide
    exact hbad (lc.length - j) (by omega) (by omega) e2.symm

theorem drain_tti_close_chunk (lc rest : List Char) (h5 : lc.length ≤ 5) :
    drain (lc ++ (closeTti ++ rest)) true = drain rest false := by
  have hfs := findSub_closeTti_after_pad lc (closeTti ++ rest) h5
    (isPrefixOf_self_append _ _)
  rw [drain_tti_found _ _ hfs]
  have hdrop : (lc ++ (closeTti ++ rest)).drop (lc.length + 6) = rest := by
    rw [show lc.length + 6 = (lc ++ closeTti).length from by
          simp [closeTti],
        show lc ++ (closeTti ++ rest) = (lc ++ closeTti) ++ rest from
          (List.append_assoc lc closeTti rest).symm,
        List.drop_left]
  rw [hdrop]

/-- Suppressed content without its closing tag: nothing is emitted and at
most five characters are retained. -/
theorem drain_tti_content (c : List Char) (hc : findSub closeTti c = none) :
    (drain c true).1 = [] ∧ (drain c true).2.2 = true ∧
    (drain c true).2.1.length ≤ 5 := by
  by_cases hce : c = []
  · subst hce
    exact ⟨rfl, rfl, by simp [drain_nil]⟩
  · rw [drain_tti_stuck c hce hc]
    refine ⟨rfl, rfl, ?_⟩
    by_cases h5 : 5 < c.length
    · rw [if_pos h5]
      simp only [List.length_drop]
      omega
    · rw [if_neg h5]
      show c.length ≤ 5
      omega


/-! ### totalOut forms of the chunk lemmas -/

theorem totalOut_pre_openTts (l : List Char) (hl : l ∈ properTagPres)
    (rest : List Char) :
    totalOut (l ++ (openTts ++ rest)) false = l ++ totalOut rest false := by
  unfold totalOut
  rw [drain_pre_openTts l hl rest]
  simp [List.append_assoc]

theorem totalOut_pre_openTti (l : List Char) (hl : l ∈ properTagPres)
    (rest : List Char) :
    totalOut (l ++ (openTti ++ rest)) false = l ++ totalOut rest true := by
  unfold totalOut
  rw [drain_pre_openTti l hl rest]
  simp [List.append_assoc]

theorem totalOut_pre_closeTts (l : List Char) (hl : l ∈ properTagPres)
    (rest : List Char) :
    totalOut (l ++ (closeTts ++ rest)) false = l ++ totalOut rest false := by
  unfold totalOut
  rw [drain_pre_closeTts l hl rest]
  simp [List.append_assoc]

theorem totalOut_tti_close (lc rest : List Char) (h5 : lc.length ≤ 5) :
    totalOut (lc ++ (closeTti ++ rest)) true = totalOut rest false := by
  unfold totalOut
  rw [drain_tti_close_chunk lc rest h5]

/-! ### Well-formed tagged inputs as segment lists -/

/-- One segment of a well-formed input: plain text, a spoken block
`[tts]…[/tts]`, or a suppressed block `[tti]…[/tti]`. -/
inductive Seg
  | plain (s : List Char)
  | tts (c : List Char)
  | tti (c : List Char)
deriving DecidableEq

def renderSeg : Seg → List Char
  | .plain s => s
  | .tts c => openTts ++ (c ++ closeTts)
  | .tti c => openTti ++ (c ++ closeTti)

/-- What the stripper should pass on to TTS for each segment. -/
def spokenSeg : Seg → List Char
  | .plain s => s
  | .tts c => c
  | .tti _ => []

def renderAll (segs : List Seg) : List Char := (segs.map renderSeg).flatten

def spokenAll (segs : List Seg) : List Char := (segs.map spokenSeg).flatten

def isPlainSeg : Seg → Bool
  | .plain _ => true
  | _ => false

def headNotPlain : List Seg → Bool
  | [] => true
  | sg :: _ => !isPlainSeg sg

/-- Well-formedness: plain text and spoken content contain no recognised
tag, suppressed content does not contain the closing `[/tti]`, and no two
plain segments are adjacent (adjacent plain text is one segment). -/
def wfSegs : List Seg → Bool
  | [] => true
  | .plain s :: rest => !containsTag s && headNotPlain rest && wfSegs rest
  | .tts c :: rest => !containsTag c && wfSegs rest
  | .tti c :: rest => !(findSub closeTti c).isSome && wfSegs rest

/-- The offline behaviour: draining any retained tag-prefix `l` followed by
a well-formed rendered input, then flushing, emits `l` followed by exactly
the spoken text. -/
theorem stripSegs : ∀ (segs : List Seg) (l : List Char), l ∈ properTagPres →
    wfSegs segs = true → (l = [] ∨ headNotPlain segs = true) →
    totalOut (l ++ renderAll segs) false = l ++ spokenAll segs := by
  intro segs
  induction segs with
  | nil =>
    intro l hl _ _
    have hdl : drain l false = ([], l, false) := by
      fin_cases hl <;> decide
    unfold totalOut
    rw [show l ++ renderAll [] = l from by simp [renderAll], hdl]
    simp [spokenAll]
  | cons sg rest ih =>
    intro l hl hwf hhead
    cases sg with
    | plain s =>
      have hlnil : l = [] := by
        rcases hhead with h | h
        · exact h
        · exfalso
          simp [headNotPlain, isPlainSeg] at h
      subst hlnil
      simp only [List.nil_append]
      have hr : renderAll (Seg.plain s :: rest) = s ++ renderAll rest := by
        simp [renderAll, renderSeg]
      rw [hr]
      simp only [wfSegs, Bool.and_eq_true, Bool.not_eq_true'] at hwf
      obtain ⟨⟨hw1, hw2⟩, hw3⟩ := hwf
      rw [totalOut_comp s (renderAll rest) false]
      obtain ⟨g1, g2, g3⟩ := drain_plain s.length s (Nat.le_refl _) hw1
      rw [g1, ih ((drain s false).2.1) g3 hw3 (Or.inr hw2),
          ← List.append_assoc, g2]
      simp [spokenAll, spokenSeg]
    | tts c =>
      have hr : l ++ renderAll (Seg.tts c :: rest)
          = l ++ (openTts ++ (c ++ (closeTts ++ renderAll rest))) := by
        simp [renderAll, renderSeg, List.append_assoc]
      rw [hr]
      simp only [wfSegs, Bool.and_eq_true, Bool.not_eq_true'] at hwf
      obtain ⟨hw1, hw2⟩ := hwf
      rw [totalOut_pre_openTts l hl, totalOut_comp c (closeTts ++ renderAll rest) false]
      obtain ⟨g1, g2, g3⟩ := drain_plain c.length c (Nat.le_refl _) hw1
      rw [g1, totalOut_pre_closeTts ((drain c false).2.1) g3 (renderAll rest)]
      have hihr := ih [] (by decide) hw2 (Or.inl rfl)
      rw [List.nil_append] at hihr
      rw [hihr]
      simp only [List.nil_append]
      have hc2 : (drain c false).1 ++ ((drain c false).2.1 ++ spokenAll rest)
          = c ++ spokenAll rest := by
        rw [← List.append_assoc, g2]
      rw [hc2]
      simp [spokenAll, spokenSeg]
    | tti c =>
      have hr : l ++ renderAll (Seg.tti c :: rest)
          = l ++ (openTti ++ (c ++ (closeTti ++ renderAll rest))) := by
        simp [renderAll, renderSeg, List.append_assoc]
      rw [hr]
      simp only [wfSegs, Bool.and_eq_true, Bool.not_eq_true'] at hwf
      obtain ⟨hw1, hw2⟩ := hwf
      have hnone : findSub closeTti c = none := by
        cases hfs : findSub closeTti c
        · rfl
        · rw [hfs] at hw1
          simp at hw1
      rw [totalOut_pre_openTti l hl, totalOut_comp c (closeTti ++ renderAll rest) true]
      obtain ⟨g1, g2, g3⟩ := drain_tti_content c hnone
      rw [g1, g2, totalOut_tti_close ((drain c true).2.1) (renderAll rest) g3]
      have hihr := ih [] (by decide) hw2 (Or.inl rfl)
      rw [List.nil_append] at hihr
      rw [hihr]
      simp [spokenAll, spokenSeg]


/-- C1: For any input that is a well-formed alternation of plain text,
`[tts]…[/tts]` blocks and `[tti]…[/tti]` blocks, feeding the rendered text
to the `_TagStripper` in any token split and then flushing emits exactly the
plain text plus the `[tts]` content, with every `[tti]…[/tti]` block and all
tag markers removed. -/
theorem c1_tag_stripper (segs : List Seg) (toks : List (List Char))
    (hwf : wfSegs segs = true)
    (hsplit : toks.flatten = renderAll segs) :
    (feedAll initStrip toks).1 ++ (flushStrip (feedAll initStrip toks).2).1
      = spokenAll segs := by
  by_cases htnil : toks = []
  · subst htnil
    have hr : renderAll segs = [] := by rw [← hsplit]; rfl
    have hs : spokenAll segs = [] := by
      unfold renderAll at hr
      rw [List.flatten_eq_nil_iff] at hr
      unfold spokenAll
      rw [List.flatten_eq_nil_iff]
      intro x hx
      rw [List.mem_map] at hx
      obtain ⟨sg, hsg, hx2⟩ := hx
      have hrsg : renderSeg sg = [] := hr _ (List.mem_map_of_mem _ hsg)
      cases sg with
      | plain t =>
        rw [← hx2]
        exact hrsg
      | tts c =>
        exfalso
        simp [renderSeg, openTts] at hrsg
      | tti c =>
        exfalso
        simp [renderSeg, openTti] at hrsg
    rw [hs]
    rfl
  · rw [feedAll_eq_flatten toks initStrip htnil, hsplit]
    have hmain := stripSegs segs [] (by decide) hwf (Or.inl rfl)
    rw [List.nil_append] at hmain
    show totalOut ([] ++ renderAll segs) false = spokenAll segs
    rw [List.nil_append]
    exact hmain

/-- Concrete instance of C1: the input
`a[tts]hello[/tts][tti]x[/tti]b` fed in three tokens whose boundaries fall
inside the tags yields exactly `ahellob`. -/
theorem c1_tag_stripper_witness :
    (feedAll initStrip
        [('a' :: openTts) ++ ['h', 'e'],
         ['l', 'l', 'o', '[', '/', 't'],
         ['t', 's', ']'] ++ openTti ++ ['x'] ++ closeTti ++ ['b']]).1
      ++ (flushStrip (feedAll initStrip
        [('a' :: openTts) ++ ['h', 'e'],
         ['l', 'l', 'o', '[', '/', 't'],
         ['t', 's', ']'] ++ openTti ++ ['x'] ++ closeTti ++ ['b']]).2).1
      = ['a', 'h', 'e', 'l', 'l', 'o', 'b'] := by
  have h := c1_tag_stripper
    [Seg.plain ['a'], Seg.tts ['h', 'e', 'l', 'l', 'o'], Seg.tti ['x'],
     Seg.plain ['b']]
    [('a' :: openTts) ++ ['h', 'e'],
     ['l', 'l', 'o', '[', '/', 't'],
     ['t', 's', ']'] ++ openTti ++ ['x'] ++ closeTti ++ ['b']]
    (by decide) (by decide)
  rw [h]
  decide



end Meowko
